import Mathlib

/-!
Shallow embedding of the encode/decode core of next-static-searchparams
(src/lib/src/index.ts: precomputeSearchParams, serialize, decrypt).

A URLSearchParams object is modelled as its list of name/value pairs in
insertion order.  JavaScript strings are modelled as Lean `String`
(`List Char`); `TextEncoder`/`TextDecoder` are the UTF-8 codec; the
WHATWG URLSearchParams sort is a stable insertion sort comparing names by
their UTF-16 code units; `Object.fromEntries` and object property order
follow the ECMAScript rules; `JSON.parse` parses arbitrary JSON values and
the URLSearchParams constructor accepts a record, a sequence, or a
string-coerced query per the WHATWG URL standard; the jose primitives
(`base64url`, `CompactSign`, `compactVerify`) are modelled from the spec
at byte level, with the underlying HMAC-SHA256 treated as an ideal
deterministic injective keyed MAC.
-/

/-- Entry list of a URLSearchParams object: name/value pairs in insertion order. -/
abbrev Params := List (String × String)

/-- Failure taxonomy of the core, following spec section 7, plus the TypeError
raised when `base64url.decode(secret)` in `decrypt` rejects the secret itself. -/
inductive Err where
  | configuration
  | malformedToken
  | signatureInvalid
  | malformedPayload
  | secretDecode
  deriving DecidableEq, Repr

/-! ## UTF-8 (TextEncoder / TextDecoder) -/

/-- UTF-8 bytes of one unicode scalar value, as produced by TextEncoder. -/
def utf8Char (c : Char) : List Nat :=
  let n := c.toNat
  if n < 0x80 then [n]
  else if n < 0x800 then [0xC0 + n / 64, 0x80 + n % 64]
  else if n < 0x10000 then [0xE0 + n / 4096, 0x80 + n / 64 % 64, 0x80 + n % 64]
  else [0xF0 + n / 262144, 0x80 + n / 4096 % 64, 0x80 + n / 64 % 64, 0x80 + n % 64]

/-- TextEncoder().encode on a character list. -/
def utf8Chars (l : List Char) : List Nat := l.flatMap utf8Char

/-- Number of continuation bytes a UTF-8 lead byte announces. -/
def utf8TailLen (b : Nat) : Nat :=
  if b < 0xC0 then 0 else if b < 0xE0 then 1 else if b < 0xF0 then 2 else 3

/-- Scalar value of one UTF-8 sequence (lead byte plus continuation bytes);
invalid shapes give the replacement character. -/
def utf8Assemble (b : Nat) (t : List Nat) : Char :=
  match t with
  | [] => if b < 0x80 then Char.ofNat b else '�'
  | [b2] => Char.ofNat ((b - 0xC0) * 64 + (b2 - 0x80))
  | [b2, b3] => Char.ofNat ((b - 0xE0) * 4096 + (b2 - 0x80) * 64 + (b3 - 0x80))
  | [b2, b3, b4] =>
    Char.ofNat ((b - 0xF0) * 262144 + (b2 - 0x80) * 4096 + (b3 - 0x80) * 64 + (b4 - 0x80))
  | _ => '�'

/-- Recursion of the UTF-8 decoder, consuming one encoded scalar per step; the
fuel is an upper bound on the number of scalars. -/
def utf8DecodeGo : Nat → List Nat → List Char
  | 0, _ => []
  | _, [] => []
  | fuel + 1, b :: rest =>
    utf8Assemble b (rest.take (utf8TailLen b)) :: utf8DecodeGo fuel (rest.drop (utf8TailLen b))

/-- TextDecoder().decode: UTF-8 decoding, lenient on malformed sequences
(replacement character), as the decoder never throws. -/
def utf8DecodeChars (l : List Nat) : List Char := utf8DecodeGo l.length l

/-! ## UTF-16 code units (JavaScript string comparison) -/

/-- UTF-16 code units of one unicode scalar value. -/
def utf16Char (c : Char) : List Nat :=
  let n := c.toNat
  if n < 0x10000 then [n]
  else [0xD800 + (n - 0x10000) / 0x400, 0xDC00 + (n - 0x10000) % 0x400]

/-- Code-unit sequence of a JavaScript string. -/
def utf16Units (s : String) : List Nat := s.data.flatMap utf16Char

/-- Number of trailing code units after a lead unit: one for a high surrogate. -/
def utf16TailLen (u : Nat) : Nat := if 0xD800 ≤ u then if u < 0xDC00 then 1 else 0 else 0

/-- Scalar value of one UTF-16 sequence. -/
def utf16Assemble (u : Nat) (t : List Nat) : Char :=
  match t with
  | [u2] => Char.ofNat (0x10000 + (u - 0xD800) * 0x400 + (u2 - 0xDC00))
  | _ => Char.ofNat u

/-- Recursion of the UTF-16 decoder, consuming one scalar per step. -/
def utf16DecodeGo : Nat → List Nat → List Char
  | 0, _ => []
  | _, [] => []
  | fuel + 1, u :: rest =>
    utf16Assemble u (rest.take (utf16TailLen u)) :: utf16DecodeGo fuel (rest.drop (utf16TailLen u))

/-- Inverse of `utf16Units`, used to establish its injectivity. -/
def utf16DecodeChars (l : List Nat) : List Char := utf16DecodeGo l.length l

/-! ## URLSearchParams sort (WHATWG: stable, by UTF-16 code units of the name) -/

/-- Lexicographic comparison of code-unit sequences. -/
def lexLE : List Nat → List Nat → Bool
  | [], _ => true
  | _ :: _, [] => false
  | a :: as, b :: bs => if a < b then true else if b < a then false else lexLE as bs

/-- Comparator of URLSearchParams.sort: order entries by the UTF-16 code units
of their names. -/
def nameLE (x y : String × String) : Prop := lexLE (utf16Units x.1) (utf16Units y.1) = true

instance : DecidableRel nameLE := fun x y => by unfold nameLE; infer_instance

/-- sortedParams.sort() from serialize: a stable sort by name. -/
def sortParams (l : Params) : Params := List.insertionSort nameLE l

/-! ## ECMAScript records (Object.fromEntries, property order, JSON) -/

/-- Assignment to a plain object: overwrite the value at an existing key in
place, otherwise append the new property. -/
def setEntry : Params → String → String → Params
  | [], k, v => [(k, v)]
  | e :: rest, k, v => if e.1 = k then (e.1, v) :: rest else e :: setEntry rest k v

/-- Object.fromEntries: later pairs overwrite the value of an existing key but
keep its first insertion position. -/
def fromEntries (l : Params) : Params := l.foldl (fun acc e => setEntry acc e.1 e.2) []

/-- Property read on a record. -/
def lookupRecord (k : String) : Params → Option String
  | [] => none
  | e :: rest => if e.1 = k then some e.2 else lookupRecord k rest

/-- Numeric value of a decimal key. -/
def keyNatVal (s : String) : Nat := s.data.foldl (fun a c => a * 10 + (c.toNat - 48)) 0

/-- ECMAScript array-index property name: canonical decimal, below 2^32 - 1. -/
def isArrayIndexKey (s : String) : Bool :=
  match s.data with
  | [] => false
  | ['0'] => true
  | c :: rest =>
    decide ('1' ≤ c ∧ c ≤ '9') && rest.all (fun d => decide ('0' ≤ d ∧ d ≤ '9')) &&
      decide (keyNatVal s < 4294967295)

/-- Comparator for array-index keys. -/
def idxLE (x y : String × String) : Prop := keyNatVal x.1 ≤ keyNatVal y.1

instance : DecidableRel idxLE := fun x y => by unfold idxLE; infer_instance

/-- ECMAScript own-property order: array-index keys first in ascending numeric
order, then the remaining string keys in insertion order. -/
def jsPropertyOrder (l : Params) : Params :=
  List.insertionSort idxLE (l.filter (fun e => isArrayIndexKey e.1)) ++
    l.filter (fun e => !isArrayIndexKey e.1)

/-- Lowercase hexadecimal digit. -/
def hexDigitChar (n : Nat) : Char := "0123456789abcdef".data.getD n '0'

/-- JSON.stringify escaping of one character of a string. -/
def jsonEscapeChar (c : Char) : List Char :=
  if c = '"' then ['\\', '"']
  else if c = '\\' then ['\\', '\\']
  else if c = '\x08' then ['\\', 'b']
  else if c = '\x0c' then ['\\', 'f']
  else if c = '\n' then ['\\', 'n']
  else if c = '\r' then ['\\', 'r']
  else if c = '\t' then ['\\', 't']
  else if c.toNat < 0x20 then
    ['\\', 'u', '0', '0', hexDigitChar (c.toNat / 16), hexDigitChar (c.toNat % 16)]
  else [c]

/-- JSON.stringify of a string value. -/
def jsonQuote (s : String) : List Char := '"' :: s.data.flatMap jsonEscapeChar ++ ['"']

/-- Comma-join of rendered members. -/
def joinComma : List (List Char) → List Char
  | [] => []
  | [x] => x
  | x :: xs => x ++ ',' :: joinComma xs

/-- JSON.stringify of a flat string-to-string record, members in the given order. -/
def jsonStringifyRecord (l : Params) : List Char :=
  '{' :: joinComma (l.map (fun e => jsonQuote e.1 ++ ':' :: jsonQuote e.2)) ++ ['}']

/-- JSON whitespace. -/
def isJsonWs (c : Char) : Bool := c = ' ' || c = '\t' || c = '\n' || c = '\r'

/-- Skip JSON whitespace. -/
def skipJsonWs (l : List Char) : List Char := l.dropWhile isJsonWs

/-- Value of one escape character after a backslash. -/
def jsonUnescape (c : Char) : Option Char :=
  if c = '"' then some '"'
  else if c = '\\' then some '\\'
  else if c = '/' then some '/'
  else if c = 'b' then some '\x08'
  else if c = 'f' then some '\x0c'
  else if c = 'n' then some '\n'
  else if c = 'r' then some '\r'
  else if c = 't' then some '\t'
  else none

/-- Hexadecimal digit value. -/
def hexVal (c : Char) : Option Nat :=
  if '0' ≤ c ∧ c ≤ '9' then some (c.toNat - 48)
  else if 'a' ≤ c ∧ c ≤ 'f' then some (c.toNat - 87)
  else if 'A' ≤ c ∧ c ≤ 'F' then some (c.toNat - 55)
  else none

/-- Body of a JSON string literal after its opening quote: decoded characters
plus the input remaining after the closing quote. -/
def parseJString : List Char → Option (List Char × List Char)
  | [] => none
  | c :: rest =>
    if c = '"' then some ([], rest)
    else if c = '\\' then
      match rest with
      | [] => none
      | e :: rest2 =>
        if e = 'u' then
          match rest2 with
          | h1 :: h2 :: h3 :: h4 :: rest3 =>
            match hexVal h1, hexVal h2, hexVal h3, hexVal h4, parseJString rest3 with
            | some a, some b, some c2, some d, some (s, r) =>
              some (Char.ofNat (a * 4096 + b * 256 + c2 * 16 + d) :: s, r)
            | _, _, _, _, _ => none
          | _ => none
        else
          match jsonUnescape e, parseJString rest2 with
          | some c2, some (s, r) => some (c2 :: s, r)
          | _, _ => none
    else
      match parseJString rest with
      | some (s, r) => some (c :: s, r)
      | none => none

/-- JSON string literal including the opening quote. -/
def parseStringLit (l : List Char) : Option (List Char × List Char) :=
  match l with
  | '"' :: rest => parseJString rest
  | _ => none

/-- Members of a JSON object after its opening brace (non-empty case).  Fuel is
an upper bound on the number of members, enough since each step consumes input. -/
def parseMembers : Nat → List Char → Option (Params × List Char)
  | 0, _ => none
  | fuel + 1, l =>
    match parseStringLit (skipJsonWs l) with
    | none => none
    | some (k, r1) =>
      match skipJsonWs r1 with
      | ':' :: r2 =>
        match parseStringLit (skipJsonWs r2) with
        | none => none
        | some (v, r3) =>
          match skipJsonWs r3 with
          | ',' :: r4 =>
            match parseMembers fuel r4 with
            | some (rest, r5) => some ((String.mk k, String.mk v) :: rest, r5)
            | none => none
          | '}' :: r4 => some ([(String.mk k, String.mk v)], r4)
          | _ => none
      | _ => none

/-- Modelled from the spec: JSON.parse restricted to the flat string-keyed,
string-valued records the canonicalizer emits (spec 4.1/4.3); any other JSON
input is reported as a parse failure, which `decrypt` surfaces as a malformed
payload. -/
def jsonParseRecord (l : List Char) : Option Params :=
  match skipJsonWs l with
  | '{' :: r1 =>
    match skipJsonWs r1 with
    | '}' :: r2 => if skipJsonWs r2 = [] then some [] else none
    | _ =>
      match parseMembers (l.length + 1) r1 with
      | some (ps, r2) => if skipJsonWs r2 = [] then some ps else none
      | none => none
  | _ => none

/-! ## General JSON values and the URLSearchParams constructor (decrypt line 97) -/

/-- A parsed JSON value as JSON.parse produces it.  A number is kept as its
literal components (sign, integer digits, fraction digits, decimal exponent),
standing for its exact decimal value. -/
inductive JsonValue where
  | jnull
  | jbool (b : Bool)
  | jnum (neg : Bool) (ip fp : List Char) (ex : Int)
  | jstr (s : List Char)
  | jarr (vs : List JsonValue)
  | jobj (ms : List (String × JsonValue))
  deriving Repr

/-- Decimal digit test. -/
def isDigitChar (c : Char) : Bool := decide ('0' ≤ c ∧ c ≤ '9')

/-- Numeric value of a decimal digit list. -/
def digitsVal (l : List Char) : Nat := l.foldl (fun a c => a * 10 + (c.toNat - 48)) 0

/-- Optional fraction part of a JSON number literal: a dot must be followed by
at least one digit. -/
def parseJNumFrac : List Char → Option (List Char × List Char)
  | '.' :: rest =>
    match rest.takeWhile isDigitChar with
    | [] => none
    | ds => some (ds, rest.dropWhile isDigitChar)
  | l => some ([], l)

/-- Optional exponent part of a JSON number literal. -/
def parseJNumExp : List Char → Option (Int × List Char)
  | [] => some (0, [])
  | c :: rest =>
    if c = 'e' ∨ c = 'E' then
      match rest with
      | '+' :: r2 =>
        match r2.takeWhile isDigitChar with
        | [] => none
        | ds => some ((digitsVal ds : Int), r2.dropWhile isDigitChar)
      | '-' :: r2 =>
        match r2.takeWhile isDigitChar with
        | [] => none
        | ds => some (-(digitsVal ds : Int), r2.dropWhile isDigitChar)
      | r2 =>
        match r2.takeWhile isDigitChar with
        | [] => none
        | ds => some ((digitsVal ds : Int), r2.dropWhile isDigitChar)
    else some (0, c :: rest)

/-- JSON number literal after an optional leading minus sign: a leading zero
stands alone, otherwise a nonzero digit heads the integer part. -/
def parseJNumTail (l : List Char) (neg : Bool) : Option (JsonValue × List Char) :=
  match l with
  | [] => none
  | c :: rest =>
    if c = '0' then
      match parseJNumFrac rest with
      | none => none
      | some (fp, r1) =>
        match parseJNumExp r1 with
        | none => none
        | some (ex, r2) => some (.jnum neg ['0'] fp ex, r2)
    else if isDigitChar c then
      match parseJNumFrac (rest.dropWhile isDigitChar) with
      | none => none
      | some (fp, r1) =>
        match parseJNumExp r1 with
        | none => none
        | some (ex, r2) => some (.jnum neg (c :: rest.takeWhile isDigitChar) fp ex, r2)
    else none

/-- ECMAScript JSON.parse grammar, one fuel-indexed function: mode 0 parses a
value, mode 1 the members of a non-empty object, mode 2 the elements of a
non-empty array.  Each recursive call consumes fuel, bounded by the input. -/
def jparseGo : Nat → Nat → List Char → Option (JsonValue × List Char)
  | 0, _, _ => none
  | fuel + 1, 1, l =>
    match parseStringLit (skipJsonWs l) with
    | none => none
    | some (k, r1) =>
      match skipJsonWs r1 with
      | ':' :: r2 =>
        match jparseGo fuel 0 r2 with
        | none => none
        | some (v, r3) =>
          match skipJsonWs r3 with
          | ',' :: r4 =>
            match jparseGo fuel 1 r4 with
            | some (.jobj ms, r5) => some (.jobj ((String.mk k, v) :: ms), r5)
            | _ => none
          | '}' :: r4 => some (.jobj [(String.mk k, v)], r4)
          | _ => none
      | _ => none
  | fuel + 1, 2, l =>
    match jparseGo fuel 0 l with
    | none => none
    | some (v, r1) =>
      match skipJsonWs r1 with
      | ',' :: r2 =>
        match jparseGo fuel 2 r2 with
        | some (.jarr vs, r3) => some (.jarr (v :: vs), r3)
        | _ => none
      | ']' :: r2 => some (.jarr [v], r2)
      | _ => none
  | fuel + 1, _, l =>
    match skipJsonWs l with
    | [] => none
    | c :: rest =>
      if c = '"' then
        match parseJString rest with
        | some (s, r) => some (.jstr s, r)
        | none => none
      else if c = '{' then
        match skipJsonWs rest with
        | '}' :: r2 => some (.jobj [], r2)
        | _ => jparseGo fuel 1 rest
      else if c = '[' then
        match skipJsonWs rest with
        | ']' :: r2 => some (.jarr [], r2)
        | _ => jparseGo fuel 2 rest
      else if c = 't' then
        match rest with
        | 'r' :: 'u' :: 'e' :: r => some (.jbool true, r)
        | _ => none
      else if c = 'f' then
        match rest with
        | 'a' :: 'l' :: 's' :: 'e' :: r => some (.jbool false, r)
        | _ => none
      else if c = 'n' then
        match rest with
        | 'u' :: 'l' :: 'l' :: r => some (.jnull, r)
        | _ => none
      else if c = '-' then parseJNumTail rest true
      else parseJNumTail (c :: rest) false

/-- JSON.parse (the whole input one value, surrounded only by whitespace);
`none` is the SyntaxError. -/
def jsonParseValue (l : List Char) : Option JsonValue :=
  match jparseGo (2 * l.length + 4) 0 l with
  | some (v, r) => if skipJsonWs r = [] then some v else none
  | none => none

/-- Strip leading zero digits. -/
def stripLeadZeros : List Char → List Char
  | '0' :: rest => stripLeadZeros rest
  | l => l

/-- A run of zero digits. -/
def zeroDigits (n : Nat) : List Char := List.replicate n '0'

/-- Decimal digits of a natural number (fuel form). -/
def natDigitsGo : Nat → Nat → List Char
  | 0, _ => []
  | fuel + 1, n =>
    if n < 10 then [Char.ofNat (48 + n)]
    else natDigitsGo fuel (n / 10) ++ [Char.ofNat (48 + n % 10)]

/-- Decimal digits of a natural number. -/
def natDigits (n : Nat) : List Char := natDigitsGo (n + 1) n

/-- ECMAScript Number::toString (radix 10) of the exact decimal value written
as sign, integer digits, fraction digits and decimal exponent.  (The engine
first rounds the literal to a binary double; on the short literals this
development evaluates, the two agree, and no theorem depends on the rounding.) -/
def jsNumChars (neg : Bool) (ip fp : List Char) (ex : Int) : List Char :=
  let dt := stripLeadZeros (ip ++ fp)
  if dt.isEmpty then ['0']
  else
    let dp := (stripLeadZeros dt.reverse).reverse
    let k : Int := (dp.length : Int)
    let n : Int := (dt.length : Int) + ex - (fp.length : Int)
    let sign : List Char := if neg then ['-'] else []
    if k ≤ n ∧ n ≤ 21 then
      sign ++ dp ++ zeroDigits (n - k).toNat
    else if 0 < n ∧ n ≤ 21 then
      sign ++ dp.take n.toNat ++ '.' :: dp.drop n.toNat
    else if -6 < n ∧ n ≤ 0 then
      sign ++ '0' :: '.' :: zeroDigits (-n).toNat ++ dp
    else
      let mant := match dp with
        | [] => ['0']
        | [d] => [d]
        | d :: ds => d :: '.' :: ds
      let e := n - 1
      sign ++ mant ++ 'e' ::
        (if e < 0 then '-' :: natDigits (-e).toNat else '+' :: natDigits e.toNat)

/-- ECMAScript ToString of a parsed JSON value (fuel on array nesting): null,
booleans and numbers print their literals, an array joins its elements with
commas printing null as empty, a plain object prints as object-Object. -/
def toUSVGo : Nat → JsonValue → List Char
  | _, .jnull => "null".data
  | _, .jbool true => "true".data
  | _, .jbool false => "false".data
  | _, .jnum neg ip fp ex => jsNumChars neg ip fp ex
  | _, .jstr s => s
  | _, .jobj _ => "[object Object]".data
  | fuel, .jarr vs =>
    match fuel with
    | 0 => []
    | f + 1 =>
      joinComma (vs.map (fun v =>
        match v with
        | .jnull => []
        | w => toUSVGo f w))


/-- Split a byte list at every ampersand. -/
def splitOnAmp : List Nat → List (List Nat)
  | [] => [[]]
  | b :: rest =>
    if b = 38 then [] :: splitOnAmp rest
    else
      match splitOnAmp rest with
      | [] => [[b]]
      | seg :: segs => (b :: seg) :: segs

/-- Split a byte list at its first equals sign; without one the value is empty. -/
def splitFirstEq : List Nat → List Nat × List Nat
  | [] => ([], [])
  | b :: rest =>
    if b = 61 then ([], rest)
    else
      match splitFirstEq rest with
      | (n, v) => (b :: n, v)

/-- Hexadecimal value of an ASCII byte. -/
def hexValByte (b : Nat) : Option Nat :=
  if 48 ≤ b ∧ b ≤ 57 then some (b - 48)
  else if 97 ≤ b ∧ b ≤ 102 then some (b - 87)
  else if 65 ≤ b ∧ b ≤ 70 then some (b - 55)
  else none

/-- Percent-decoding of a byte list; a percent sign without two hexadecimal
digits stays literal. -/
def percentDecodeBytes : List Nat → List Nat
  | [] => []
  | 37 :: h1 :: h2 :: rest =>
    match hexValByte h1, hexValByte h2 with
    | some a, some b => (a * 16 + b) :: percentDecodeBytes rest
    | _, _ => 37 :: percentDecodeBytes (h1 :: h2 :: rest)
  | b :: rest => b :: percentDecodeBytes rest

/-- One name or value of the urlencoded format: plus to space, percent-decode,
UTF-8 decode. -/
def formComponent (l : List Nat) : String :=
  String.mk (utf8DecodeChars (percentDecodeBytes
    (l.map (fun b => if b = 43 then 32 else b))))

/-- WHATWG application/x-www-form-urlencoded parser: UTF-8 encode the input,
split on ampersands skipping empty pieces, split each piece at its first
equals sign, decode name and value. -/
def parseUrlEncodedChars (s : List Char) : Params :=
  ((splitOnAmp (utf8Chars s)).filter (fun piece => !piece.isEmpty)).map
    (fun piece =>
      match splitFirstEq piece with
      | (n, v) => (formComponent n, formComponent v))

/-- URLSearchParams string init: a leading question mark is removed, the rest
is parsed as a urlencoded query. -/
def uspStringInit (s : List Char) : Params :=
  parseUrlEncodedChars (match s with | '?' :: r => r | l => l)

/-- One inner element of a sequence init: an iterable of exactly two items — a
two-character string or a two-element array whose items are ToString-converted;
anything else is the constructor's TypeError.  The fuel feeds the ToString. -/
def uspSeqPair (fuel : Nat) : JsonValue → Option (String × String)
  | .jstr [a, b] => some (String.mk [a], String.mk [b])
  | .jarr [x, y] => some (String.mk (toUSVGo fuel x), String.mk (toUSVGo fuel y))
  | _ => none

/-- Sequence init of URLSearchParams: every element must convert to a pair. -/
def uspSeqPairs (fuel : Nat) : List JsonValue → Option Params
  | [] => some []
  | v :: rest =>
    match uspSeqPair fuel v, uspSeqPairs fuel rest with
    | some p, some ps => some (p :: ps)
    | _, _ => none

/-- new URLSearchParams(init) on a JSON.parse result (src/lib/src/index.ts:97):
a plain object is a record init (own properties in property order, values
ToString-converted), an array is a sequence init, and every other value is
ToString-converted and parsed as a query string; `none` is the TypeError of a
malformed sequence.  The fuel bounds the array nesting of the ToStrings; any
fuel at least the length of the JSON text the value was parsed from is exact. -/
def urlSearchParamsInit (fuel : Nat) : JsonValue → Option Params
  | .jobj ms =>
    some (jsPropertyOrder (fromEntries
      (ms.map (fun e => (e.1, String.mk (toUSVGo fuel e.2))))))
  | .jarr vs => uspSeqPairs fuel vs
  | v => some (uspStringInit (toUSVGo fuel v))

/-! ## base64url (jose) -/

/-- URL-safe base64 alphabet. -/
def b64UrlAlphabet : List Char :=
  "ABCDEFGHIJKLMNOPQRSTUVWXYZabcdefghijklmnopqrstuvwxyz0123456789-_".data

/-- Standard base64 alphabet. -/
def b64StdAlphabet : List Char :=
  "ABCDEFGHIJKLMNOPQRSTUVWXYZabcdefghijklmnopqrstuvwxyz0123456789+/".data

/-- Character of a six-bit group in the URL-safe alphabet. -/
def b64UrlChar (n : Nat) : Char := b64UrlAlphabet.getD n 'A'

/-- Six-bit value of a standard-alphabet character. -/
def b64Val (c : Char) : Option Nat :=
  let i := b64StdAlphabet.findIdx (fun x => x == c)
  if i < 64 then some i else none

/-- jose base64url.encode: unpadded URL-safe base64 of a byte list. -/
def b64UrlEncode : List Nat → List Char
  | [] => []
  | [a] => [b64UrlChar (a / 4), b64UrlChar (a % 4 * 16)]
  | [a, b] => [b64UrlChar (a / 4), b64UrlChar (a % 4 * 16 + b / 16), b64UrlChar (b % 16 * 4)]
  | a :: b :: c :: rest =>
    b64UrlChar (a / 4) :: b64UrlChar (a % 4 * 16 + b / 16) ::
      b64UrlChar (b % 16 * 4 + c / 64) :: b64UrlChar (c % 64) :: b64UrlEncode rest

/-- Whitespace characters matched by the JavaScript regular expression class \s,
which the jose decoder strips. -/
def jsWsChars : List Char :=
  [' ', '\t', '\n', '\r', '\x0b', '\x0c', ' ', ' ', ' ', ' ', ' ',
   ' ', ' ', ' ', ' ', ' ', ' ', ' ', ' ', ' ',
   ' ', ' ', ' ', '　', '﻿']

/-- Test for JavaScript whitespace. -/
def isJsWsChar (c : Char) : Bool := jsWsChars.contains c

/-- Map the URL-safe alphabet onto the standard one. -/
def cleanChar (c : Char) : Char := if c = '-' then '+' else if c = '_' then '/' else c

/-- Pre-processing of the jose decoder: strip whitespace, then translate - and _ . -/
def cleanB64 (l : List Char) : List Char := (l.filter (fun c => !isJsWsChar c)).map cleanChar

/-- Forgiving-base64: when the length is a multiple of four, remove one or two
trailing padding characters. -/
def stripB64Pad (l : List Char) : List Char :=
  if l.length % 4 = 0 then
    if l.getLast? = some '=' then
      if l.dropLast.getLast? = some '=' then l.dropLast.dropLast else l.dropLast
    else l
  else l

/-- Forgiving-base64 decoding of a cleaned, unpadded character list: four
characters to three bytes, a final chunk of two or three characters to one or
two bytes with trailing bits discarded, a final chunk of one character refused. -/
def decodeB64Chunks : List Char → Option (List Nat)
  | [] => some []
  | [_] => none
  | [a, b] =>
    match b64Val a, b64Val b with
    | some x, some y => some [x * 4 + y / 16]
    | _, _ => none
  | [a, b, c] =>
    match b64Val a, b64Val b, b64Val c with
    | some x, some y, some z => some [x * 4 + y / 16, y % 16 * 16 + z / 4]
    | _, _, _ => none
  | a :: b :: c :: d :: rest =>
    match b64Val a, b64Val b, b64Val c, b64Val d, decodeB64Chunks rest with
    | some x, some y, some z, some w, some bs =>
      some ((x * 4 + y / 16) :: (y % 16 * 16 + z / 4) :: (z % 4 * 64 + w) :: bs)
    | _, _, _, _, _ => none

/-- Modelled from the spec: jose base64url.decode — strip JavaScript whitespace,
translate the URL-safe alphabet, handle optional padding, decode forgivingly;
any other character is rejected (the TypeError of the jose decoder). -/
def joseB64DecodeChars (l : List Char) : Option (List Nat) :=
  decodeB64Chunks (stripB64Pad (cleanB64 l))

/-! ## The MAC and the compact JWS envelope -/

/-- Modelled from the spec: HMAC with a 256-bit-output hash (spec 4.2), the
primitive jose runs for alg HS256.  It is treated as an ideal deterministic
keyed MAC: a byte string from which key and message are recoverable, so that
signature equality reflects exactly key and message equality. -/
def hmacSHA256 (key msg : List Nat) : List Nat :=
  key.flatMap (fun b => [0, b % 256]) ++ 2 :: msg.map (fun b => b % 256)

/-- JSON text of the protected header set by serialize: alg HS256. -/
def headerJsonChars : List Char := "\x7b\"alg\":\"HS256\"\x7d".data

/-- Base64url header segment of every token the Signer produces. -/
def headerSegChars : List Char := b64UrlEncode (utf8Chars headerJsonChars)

/-- Modelled from the spec: jose CompactSign — three base64url segments joined
by dots, the signature being the MAC over the ASCII bytes of
header-dot-payload under the given key (spec 4.2). -/
def compactSignWith (hm : List Nat → List Nat → List Nat) (payload key : List Nat) : List Char :=
  let pseg := b64UrlEncode payload
  let sseg := b64UrlEncode (hm key (utf8Chars (headerSegChars ++ '.' :: pseg)))
  headerSegChars ++ '.' :: pseg ++ '.' :: sseg

/-- Canonical JSON text serialize builds: sort a copy of the params, collapse
them to a record with Object.fromEntries, JSON.stringify the record. -/
def stringifiedParamsOf (searchParams : Params) : List Char :=
  jsonStringifyRecord (jsPropertyOrder (fromEntries (sortParams searchParams)))

/-- Final signing step of serialize on the already sorted entry list.  In the
source the CompactSign constructor receives `TextEncoder().encode(secret)` and
`.sign` receives `TextEncoder().encode(encodedParams)`; the constructor argument
is the JWS payload and the `.sign` argument is the key, so the UTF-8 bytes of
the secret become the payload and the UTF-8 bytes of the base64url-encoded
parameters become the MAC key. -/
def signSortedWith (hm : List Nat → List Nat → List Nat) (sorted : Params) (s : String) : String :=
  let stringifiedParams := jsonStringifyRecord (jsPropertyOrder (fromEntries sorted))
  let encodedParams := b64UrlEncode (utf8Chars stringifiedParams)
  String.mk (compactSignWith hm (utf8Chars s.data) (utf8Chars encodedParams))

/-- serialize (src/lib/src/index.ts:50-73), the MAC passed as a parameter so
that the configuration check is visibly independent of any cryptography.
process.env.SEARCHPARAMS_SECRET and the explicit argument collapse to one
optional secret; the falsy check rejects both a missing and an empty secret. -/
def serializeWith (hm : List Nat → List Nat → List Nat) (searchParams : Params)
    (secret : Option String) : Except Err String :=
  match secret with
  | none => .error .configuration
  | some s =>
    if s = "" then .error .configuration
    else .ok (signSortedWith hm (sortParams searchParams) s)

/-- serialize with the concrete MAC. -/
def serialize (searchParams : Params) (secret : Option String) : Except Err String :=
  serializeWith hmacSHA256 searchParams secret

/-- precomputeSearchParams (src/lib/src/index.ts:35-42): apply the caller
transform, then serialize. -/
def precomputeSearchParams (searchParams : Params) (parseFunction : Params → Params)
    (secret : Option String) : Except Err String :=
  serialize (parseFunction searchParams) secret

/-- Split a character list at every dot, as String.prototype.split does. -/
def splitOnDot : List Char → List (List Char)
  | [] => [[]]
  | c :: rest =>
    if c = '.' then [] :: splitOnDot rest
    else
      match splitOnDot rest with
      | [] => [[c]]
      | seg :: segs => (c :: seg) :: segs

/-- Modelled from the spec: jose compactVerify (spec 4.3) — split the token
into exactly three segments, decode and parse the protected header and check it
declares HS256, decode the signature, recompute the MAC over the ASCII bytes of
header-dot-payload under the supplied key and compare; only after a successful
comparison base64url-decode the payload.  Structural failures are the
malformed-token rejection, a failed comparison the invalid-signature one. -/
def compactVerifyWith (hm : List Nat → List Nat → List Nat) (code : List Char)
    (key : List Nat) : Except Err (List Nat) :=
  match splitOnDot code with
  | [h, p, g] =>
    match joseB64DecodeChars h with
    | none => .error .malformedToken
    | some hb =>
      match jsonParseRecord (utf8DecodeChars hb) with
      | none => .error .malformedToken
      | some hpairs =>
        if lookupRecord "alg" (fromEntries hpairs) = some "HS256" then
          match joseB64DecodeChars g with
          | none => .error .malformedToken
          | some sig =>
            if sig = hm key (utf8Chars (h ++ '.' :: p)) then
              match joseB64DecodeChars p with
              | none => .error .malformedToken
              | some payload => .ok payload
            else .error .signatureInvalid
        else .error .malformedToken
  | _ => .error .malformedToken

/-- decrypt (src/lib/src/index.ts:90-98) with the MAC as a parameter: check the
secret, base64url-decode it (the source passes `base64url.decode(secret)` as
the verification key), verify the token, decode the payload bytes with
TextDecoder, JSON.parse them to an arbitrary JSON value, and hand that value
to the URLSearchParams constructor (line 97) — a record init for an object, a
sequence init for an array, a string-coerced query parse for every other
value.  The JSON.parse SyntaxError and the constructor TypeError are both the
payload rejection. -/
def decryptWith (hm : List Nat → List Nat → List Nat) (code : String)
    (secret : Option String) : Except Err Params :=
  match secret with
  | none => .error .configuration
  | some s =>
    if s = "" then .error .configuration
    else
      match joseB64DecodeChars s.data with
      | none => .error .secretDecode
      | some key =>
        match compactVerifyWith hm code.data key with
        | .error e => .error e
        | .ok payload =>
          match jsonParseValue (utf8DecodeChars payload) with
          | none => .error .malformedPayload
          | some v =>
            match urlSearchParamsInit (utf8DecodeChars payload).length v with
            | none => .error .malformedPayload
            | some pairs => .ok pairs

/-- decrypt with the concrete MAC. -/
def decrypt (code : String) (secret : Option String) : Except Err Params :=
  decryptWith hmacSHA256 code secret

/-! ## Object store for the frame property of serialize -/

/-- Heap of URLSearchParams objects: references paired with entry lists. -/
structure ParamsStore where
  objs : List (Nat × Params)

/-- Read an object. -/
def getObj (st : ParamsStore) (r : Nat) : Option Params :=
  (st.objs.find? (fun e => e.1 == r)).map (fun e => e.2)

/-- Read an object, defaulting to an empty collection. -/
def getObjD (st : ParamsStore) (r : Nat) : Params := (getObj st r).getD []

/-- An unused reference. -/
def freshRef (st : ParamsStore) : Nat := (st.objs.map (fun e => e.1)).foldr max 0 + 1

/-- Allocate a new object, as `new URLSearchParams(init)` does. -/
def allocObj (st : ParamsStore) (p : Params) : ParamsStore × Nat :=
  let r := freshRef st
  (⟨(r, p) :: st.objs⟩, r)

/-- Overwrite an existing object in place, as the mutating sort does. -/
def setObj (st : ParamsStore) (r : Nat) (p : Params) : ParamsStore :=
  ⟨st.objs.map (fun e => if e.1 = r then (r, p) else e)⟩

/-- serialize with its two URLSearchParams objects held in an explicit store:
`new URLSearchParams(searchParams)` allocates a fresh copy of the caller
object and `.sort()` mutates only that copy. -/
def serializeOp (st : ParamsStore) (r : Nat) (secret : Option String) :
    ParamsStore × Except Err String :=
  match secret with
  | none => (st, .error .configuration)
  | some s =>
    if s = "" then (st, .error .configuration)
    else
      let a := allocObj st (getObjD st r)
      let st2 := setObj a.1 a.2 (sortParams (getObjD a.1 a.2))
      (st2, .ok (signSortedWith hmacSHA256 (getObjD st2 a.2) s))

/-- precomputeSearchParams on the store, the caller transform acting on the store. -/
def precomputeSearchParamsOp (st : ParamsStore) (r : Nat)
    (parseFunction : ParamsStore → Nat → ParamsStore × Nat) (secret : Option String) :
    ParamsStore × Except Err String :=
  let a := parseFunction st r
  serializeOp a.1 a.2 secret

/-- The identity transform of the round-trip law. -/
def identityParse (st : ParamsStore) (r : Nat) : ParamsStore × Nat := (st, r)

/-! ## Token segments and the structural rejection predicate -/

/-- Payload segment of every token serialize produces under secret `s`: the
base64url of the UTF-8 bytes of the secret itself (the swapped CompactSign
argument). -/
def payloadSegChars (s : String) : List Char := b64UrlEncode (utf8Chars s.data)

/-- MAC key serialize actually signs with: the UTF-8 bytes of the
base64url-encoded canonical parameters (the swapped `.sign` argument). -/
def signKeyBytes (p : Params) : List Nat :=
  utf8Chars (b64UrlEncode (utf8Chars (stringifiedParamsOf p)))

/-- Signature segment of the token serialize produces for `p` under secret `s`. -/
def sigSegChars (p : Params) (s : String) : List Char :=
  b64UrlEncode (hmacSHA256 (signKeyBytes p) (utf8Chars (headerSegChars ++ '.' :: payloadSegChars s)))

/-- Header segment acceptance of the Verifier: the segment base64url-decodes,
its bytes parse as a record, and the record declares alg HS256. -/
def headerAlgOk (h : List Char) : Prop :=
  ∃ hb hpairs, joseB64DecodeChars h = some hb ∧
    jsonParseRecord (utf8DecodeChars hb) = some hpairs ∧
    lookupRecord "alg" (fromEntries hpairs) = some "HS256"

/-- Structural rejection condition of the Verifier (spec 4.3): the input does
not split into exactly three segments, or its header segment is not accepted. -/
def MalformedShape (code : List Char) : Prop :=
  ∀ h p g, splitOnDot code = [h, p, g] → ¬ headerAlgOk h

/-! ## Elementary facts about the store -/

theorem le_foldr_max : ∀ (l : List Nat), ∀ x ∈ l, x ≤ l.foldr max 0 := by
  intro l
  induction l with
  | nil => simp
  | cons a t ih =>
    intro x hx
    rcases List.mem_cons.mp hx with h | h
    · subst h; exact le_max_left _ _
    · exact le_trans (ih x h) (le_max_right _ _)

theorem getObj_mem {st : ParamsStore} {r : Nat} {p : Params} (h : getObj st r = some p) :
    ∃ e ∈ st.objs, e.1 = r := by
  unfold getObj at h
  rcases Option.map_eq_some'.mp h with ⟨e, he, _⟩
  refine ⟨e, List.mem_of_find?_eq_some he, ?_⟩
  have := List.find?_some he
  simpa using this

theorem getObj_lt_freshRef {st : ParamsStore} {r : Nat} {p : Params}
    (h : getObj st r = some p) : r < freshRef st := by
  rcases getObj_mem h with ⟨e, he, hr⟩
  unfold freshRef
  have hle := le_foldr_max (st.objs.map (fun e => e.1)) e.1 (List.mem_map_of_mem _ he)
  omega

theorem find?_map_setObj (r r2 : Nat) (q : Params) (hne : r ≠ r2) :
    ∀ l : List (Nat × Params),
      (l.map (fun e => if e.1 = r2 then (r2, q) else e)).find? (fun e => e.1 == r) =
        l.find? (fun e => e.1 == r) := by
  intro l
  induction l with
  | nil => rfl
  | cons a t ih =>
    by_cases h : a.1 = r2
    · have h1 : ((r2, q).1 == r) = false := by simp [Ne.symm hne]
      have h2 : (a.1 == r) = false := by simp [h, Ne.symm hne]
      simp [List.find?, h, h1, h2, ih]
    · by_cases h2 : a.1 = r
      · simp [List.find?, h, h2, hne]
      · simp [List.find?, h, h2, ih]

theorem getObj_setObj_ne (st : ParamsStore) (r r2 : Nat) (q : Params) (hne : r ≠ r2) :
    getObj (setObj st r2 q) r = getObj st r := by
  unfold getObj setObj
  rw [find?_map_setObj r r2 q hne]

/-! ## Stability of the sort and last-wins of the record -/

theorem lexLE_refl : ∀ l : List Nat, lexLE l l = true := by
  intro l
  induction l with
  | nil => rfl
  | cons a t ih => simp [lexLE, ih]

theorem nameLE_of_eq_key {x y : String × String} (h : x.1 = y.1) : nameLE x y := by
  unfold nameLE
  rw [h]
  exact lexLE_refl _

theorem filter_orderedInsert (k : String) (x : String × String) :
    ∀ l : Params,
      (List.orderedInsert nameLE x l).filter (fun e => e.1 == k) =
        if x.1 == k then x :: l.filter (fun e => e.1 == k)
        else l.filter (fun e => e.1 == k) := by
  intro l
  induction l with
  | nil =>
    by_cases h : x.1 = k
    · simp [List.orderedInsert, List.filter, beq_iff_eq.mpr h]
    · simp [List.orderedInsert, List.filter, beq_eq_false_iff_ne.mpr h]
  | cons b t ih =>
    by_cases hle : nameLE x b
    · simp only [List.orderedInsert, if_pos hle]
      by_cases h : x.1 = k
      · simp [List.filter, beq_iff_eq.mpr h]
      · simp [List.filter, beq_eq_false_iff_ne.mpr h]
    · have hbk : x.1 = k → ¬(b.1 = k) := by
        intro hx hb
        exact hle (nameLE_of_eq_key (hx.trans hb.symm))
      simp only [List.orderedInsert, if_neg hle]
      by_cases h : x.1 = k
      · have hb : ¬(b.1 = k) := hbk h
        simp [List.filter, beq_iff_eq.mpr h, beq_eq_false_iff_ne.mpr hb, ih]
      · by_cases hb : b.1 = k
        · simp [List.filter, beq_eq_false_iff_ne.mpr h, beq_iff_eq.mpr hb, ih]
        · simp [List.filter, beq_eq_false_iff_ne.mpr h, beq_eq_false_iff_ne.mpr hb, ih]

theorem filter_sortParams (k : String) : ∀ l : Params,
    (sortParams l).filter (fun e => e.1 == k) = l.filter (fun e => e.1 == k) := by
  intro l
  induction l with
  | nil => rfl
  | cons a t ih =>
    show (List.orderedInsert nameLE a (sortParams t)).filter _ = _
    rw [filter_orderedInsert k a (sortParams t)]
    by_cases h : a.1 = k
    · simp [List.filter, beq_iff_eq.mpr h, ih]
    · simp [List.filter, beq_eq_false_iff_ne.mpr h, ih]

theorem lookupRecord_setEntry (k k2 : String) (v : String) :
    ∀ acc : Params,
      lookupRecord k (setEntry acc k2 v) = if k2 = k then some v else lookupRecord k acc := by
  intro acc
  induction acc with
  | nil => by_cases h : k2 = k <;> simp [setEntry, lookupRecord, h]
  | cons e rest ih =>
    simp only [setEntry]
    by_cases he : e.1 = k2
    · rw [if_pos he]
      simp only [lookupRecord]
      by_cases hk : k2 = k
      · rw [if_pos (he.trans hk), if_pos hk]
      · have hek : ¬(e.1 = k) := fun hh => hk (he.symm.trans hh)
        rw [if_neg hek, if_neg hk, if_neg hek]
    · rw [if_neg he]
      simp only [lookupRecord]
      by_cases hek : e.1 = k
      · have hk : ¬(k2 = k) := fun hh => he (hek.trans hh.symm)
        rw [if_pos hek, if_neg hk, if_pos hek]
      · rw [if_neg hek, ih, if_neg hek]

theorem getLast?_cons_of_getLast? {α : Type} {t : List α} {x : α} (e : α)
    (h : t.getLast? = some x) : (e :: t).getLast? = some x := by
  cases t with
  | nil => simp at h
  | cons b u => rw [List.getLast?_cons_cons]; exact h

theorem lookupRecord_foldl (k : String) :
    ∀ (l : Params) (acc : Params),
      lookupRecord k (l.foldl (fun a e => setEntry a e.1 e.2) acc) =
        match (l.filter (fun e => e.1 == k)).getLast? with
        | some e => some e.2
        | none => lookupRecord k acc := by
  intro l
  induction l with
  | nil => intro acc; simp [List.filter]
  | cons e rest ih =>
    intro acc
    rw [List.foldl_cons, ih]
    by_cases he : e.1 = k
    · rw [show List.filter (fun x => x.1 == k) (e :: rest) = e :: List.filter (fun x => x.1 == k) rest by
        simp [List.filter, beq_iff_eq.mpr he]]
      cases hlast : (rest.filter (fun x => x.1 == k)).getLast? with
      | some x => rw [getLast?_cons_of_getLast? e hlast]
      | none =>
        rw [List.getLast?_eq_none_iff.mp hlast]
        simp [lookupRecord_setEntry, he]
    · rw [show List.filter (fun x => x.1 == k) (e :: rest) = List.filter (fun x => x.1 == k) rest by
        simp [List.filter, beq_eq_false_iff_ne.mpr he]]
      cases hlast : (rest.filter (fun x => x.1 == k)).getLast? with
      | some x => rfl
      | none => simp [lookupRecord_setEntry, he]

/-! ## Order properties of the comparator and injectivity of the key encoding -/

theorem lexLE_total : ∀ a b : List Nat, lexLE a b = true ∨ lexLE b a = true := by
  intro a
  induction a with
  | nil => intro b; left; rfl
  | cons x as ih =>
    intro b
    cases b with
    | nil => right; rfl
    | cons y bs =>
      simp only [lexLE]
      rcases Nat.lt_trichotomy x y with h | h | h
      · left; rw [if_pos h]
      · subst h
        rcases ih bs with h2 | h2
        · left; rw [if_neg (lt_irrefl x), if_neg (lt_irrefl x)]; exact h2
        · right; rw [if_neg (lt_irrefl x), if_neg (lt_irrefl x)]; exact h2
      · right; rw [if_pos h]

theorem lexLE_trans : ∀ a b c : List Nat,
    lexLE a b = true → lexLE b c = true → lexLE a c = true := by
  intro a
  induction a with
  | nil => intro b c _ _; rfl
  | cons x as ih =>
    intro b c hab hbc
    cases b with
    | nil => simp [lexLE] at hab
    | cons y bs =>
      cases c with
      | nil => simp [lexLE] at hbc
      | cons z cs =>
        simp only [lexLE] at hab hbc ⊢
        by_cases hxy : x < y
        · have hyz : y ≤ z := by
            by_contra hc
            push_neg at hc
            rw [if_neg (by omega), if_pos hc] at hbc
            exact Bool.false_ne_true hbc
          rw [if_pos (by omega)]
        · by_cases hyx : y < x
          · rw [if_neg hxy, if_pos hyx] at hab
            exact absurd hab Bool.false_ne_true
          · have hxyeq : x = y := by omega
            subst hxyeq
            rw [if_neg hxy, if_neg hyx] at hab
            by_cases hxz : x < z
            · rw [if_pos hxz]
            · by_cases hzx : z < x
              · rw [if_neg hxz, if_pos hzx] at hbc
                exact absurd hbc Bool.false_ne_true
              · rw [if_neg hxz, if_neg hzx] at hbc ⊢
                exact ih bs cs hab hbc

theorem lexLE_antisymm : ∀ a b : List Nat,
    lexLE a b = true → lexLE b a = true → a = b := by
  intro a
  induction a with
  | nil =>
    intro b _ hba
    cases b with
    | nil => rfl
    | cons y bs => simp [lexLE] at hba
  | cons x as ih =>
    intro b hab hba
    cases b with
    | nil => simp [lexLE] at hab
    | cons y bs =>
      simp only [lexLE] at hab hba
      by_cases hxy : x < y
      · rw [if_neg (by omega), if_pos hxy] at hba
        exact absurd hba Bool.false_ne_true
      · by_cases hyx : y < x
        · rw [if_neg hxy, if_pos hyx] at hab
          exact absurd hab Bool.false_ne_true
        · have hxyeq : x = y := by omega
          subst hxyeq
          rw [if_neg hxy, if_neg hxy] at hab hba
          rw [ih bs hab hba]

instance : IsTotal (String × String) nameLE :=
  ⟨fun a b => lexLE_total (utf16Units a.1) (utf16Units b.1)⟩

instance : IsTrans (String × String) nameLE :=
  ⟨fun a b c => lexLE_trans (utf16Units a.1) (utf16Units b.1) (utf16Units c.1)⟩

theorem char_toNat_valid (c : Char) : c.toNat < 0xD800 ∨ (0xDFFF < c.toNat ∧ c.toNat < 0x110000) :=
  c.valid

theorem utf16Char_eq_low (c : Char) (h : c.toNat < 0x10000) : utf16Char c = [c.toNat] := by
  simp [utf16Char, h]

theorem utf16Char_eq_high (c : Char) (h : ¬ c.toNat < 0x10000) :
    utf16Char c = [0xD800 + (c.toNat - 0x10000) / 0x400, 0xDC00 + (c.toNat - 0x10000) % 0x400] := by
  simp [utf16Char, h]

theorem utf16DecodeGo_congr : ∀ (f1 f2 : Nat) (l : List Nat),
    l.length ≤ f1 → l.length ≤ f2 → utf16DecodeGo f1 l = utf16DecodeGo f2 l := by
  intro f1
  induction f1 with
  | zero =>
    intro f2 l h1 _
    have hl : l = [] := List.eq_nil_of_length_eq_zero (Nat.le_zero.mp h1)
    subst hl
    cases f2 <;> rfl
  | succ f ih =>
    intro f2 l h1 h2
    cases l with
    | nil => cases f2 <;> rfl
    | cons b rest =>
      cases f2 with
      | zero => simp at h2
      | succ f2m =>
        simp only [utf16DecodeGo]
        simp only [List.length_cons] at h1 h2
        have hd1 : (rest.drop (utf16TailLen b)).length ≤ f := by
          rw [List.length_drop]; omega
        have hd2 : (rest.drop (utf16TailLen b)).length ≤ f2m := by
          rw [List.length_drop]; omega
        rw [ih f2m _ hd1 hd2]

theorem utf16DecodeChars_utf16Char (c : Char) (l : List Nat) :
    utf16DecodeChars (utf16Char c ++ l) = c :: utf16DecodeChars l := by
  have hv := char_toNat_valid c
  unfold utf16DecodeChars
  by_cases h : c.toNat < 0x10000
  · rw [utf16Char_eq_low c h, List.singleton_append]
    simp only [List.length_cons]
    simp only [utf16DecodeGo]
    have htail : utf16TailLen c.toNat = 0 := by
      unfold utf16TailLen
      rcases hv with hv | hv
      · rw [if_neg (by omega)]
      · rw [if_pos (by omega), if_neg (by omega)]
    rw [htail, List.take_zero, List.drop_zero]
    show utf16Assemble c.toNat [] :: _ = _
    unfold utf16Assemble
    rw [Char.ofNat_toNat]
  · rw [utf16Char_eq_high c h, List.cons_append, List.singleton_append]
    simp only [List.length_cons]
    rw [utf16DecodeGo]
    have htail : utf16TailLen (0xD800 + (c.toNat - 0x10000) / 0x400) = 1 := by
      unfold utf16TailLen
      rw [if_pos (by omega), if_pos (by omega)]
    rw [htail, List.take_succ_cons, List.take_zero, List.drop_succ_cons, List.drop_zero]
    show Char.ofNat (0x10000 + (0xD800 + (c.toNat - 0x10000) / 0x400 - 0xD800) * 0x400 +
        (0xDC00 + (c.toNat - 0x10000) % 0x400 - 0xDC00)) :: utf16DecodeGo (l.length + 1) l =
      c :: utf16DecodeGo l.length l
    have harith : 0x10000 + (0xD800 + (c.toNat - 0x10000) / 0x400 - 0xD800) * 0x400 +
        (0xDC00 + (c.toNat - 0x10000) % 0x400 - 0xDC00) = c.toNat := by omega
    rw [harith, Char.ofNat_toNat, utf16DecodeGo_congr (l.length + 1) l.length l (by omega) (le_refl _)]

theorem utf16DecodeChars_flatMap (l : List Char) :
    utf16DecodeChars (l.flatMap utf16Char) = l := by
  induction l with
  | nil => rfl
  | cons c t ih => rw [List.flatMap_cons, utf16DecodeChars_utf16Char, ih]

theorem utf16Units_inj {s1 s2 : String} (h : utf16Units s1 = utf16Units s2) : s1 = s2 := by
  have h2 : utf16DecodeChars (s1.data.flatMap utf16Char) =
      utf16DecodeChars (s2.data.flatMap utf16Char) := by
    unfold utf16Units at h
    rw [h]
  rw [utf16DecodeChars_flatMap, utf16DecodeChars_flatMap] at h2
  cases s1 with
  | mk d1 =>
    cases s2 with
    | mk d2 => exact congrArg String.mk (by simpa using h2)

/-! ## Uniqueness of the sorted order under distinct keys -/

theorem nodup_keys_entry_eq {l : Params} (hnd : (l.map Prod.fst).Nodup) :
    ∀ a ∈ l, ∀ b ∈ l, a.1 = b.1 → a = b := by
  induction l with
  | nil => intro a ha; cases ha
  | cons e t ih =>
    intro a ha b hb hab
    rcases List.mem_cons.mp ha with rfl | ha2
    · rcases List.mem_cons.mp hb with rfl | hb2
      · rfl
      · exfalso
        have : a.1 ∈ t.map Prod.fst := by
          rw [hab]
          exact List.mem_map_of_mem Prod.fst hb2
        exact (List.nodup_cons.mp hnd).1 this
    · rcases List.mem_cons.mp hb with rfl | hb2
      · exfalso
        have : b.1 ∈ t.map Prod.fst := by
          rw [← hab]
          exact List.mem_map_of_mem Prod.fst ha2
        exact (List.nodup_cons.mp hnd).1 this
      · exact ih (List.nodup_cons.mp hnd).2 a ha2 b hb2 hab

theorem eq_of_perm_sorted_uniqueKeys :
    ∀ (l1 l2 : Params), l1.Perm l2 → l1.Pairwise nameLE → l2.Pairwise nameLE →
      (∀ a ∈ l1, ∀ b ∈ l1, a.1 = b.1 → a = b) → l1 = l2 := by
  intro l1
  induction l1 with
  | nil =>
    intro l2 hperm _ _ _
    exact (hperm.nil_eq).symm.symm ▸ rfl
  | cons a t1 ih =>
    intro l2 hperm hs1 hs2 huniq
    cases l2 with
    | nil => exact absurd hperm.symm.nil_eq (by simp)
    | cons b t2 =>
      by_cases hab : a = b
      · subst hab
        have htp : t1.Perm t2 := hperm.cons_inv
        have ht1 : t1.Pairwise nameLE := (List.pairwise_cons.mp hs1).2
        have ht2 : t2.Pairwise nameLE := (List.pairwise_cons.mp hs2).2
        have huniq2 : ∀ x ∈ t1, ∀ y ∈ t1, x.1 = y.1 → x = y := by
          intro x hx y hy
          exact huniq x (List.mem_cons_of_mem a hx) y (List.mem_cons_of_mem a hy)
        rw [ih t2 htp ht1 ht2 huniq2]
      · exfalso
        have hbmem : b ∈ a :: t1 := hperm.symm.subset (List.mem_cons_self b t2)
        have hamem : a ∈ b :: t2 := hperm.subset (List.mem_cons_self a t1)
        have hbt1 : b ∈ t1 := by
          rcases List.mem_cons.mp hbmem with h | h
          · exact absurd h.symm hab
          · exact h
        have hat2 : a ∈ t2 := by
          rcases List.mem_cons.mp hamem with h | h
          · exact absurd h hab
          · exact h
        have h1 : nameLE a b := (List.pairwise_cons.mp hs1).1 b hbt1
        have h2 : nameLE b a := (List.pairwise_cons.mp hs2).1 a hat2
        have hkeys : a.1 = b.1 :=
          utf16Units_inj (lexLE_antisymm (utf16Units a.1) (utf16Units b.1) h1 h2)
        exact hab (huniq a (List.mem_cons_self a t1) b (List.mem_cons_of_mem a hbt1) hkeys)

theorem sortParams_eq_of_perm {p1 p2 : Params} (hperm : p1.Perm p2)
    (hnd : (p1.map Prod.fst).Nodup) : sortParams p1 = sortParams p2 := by
  apply eq_of_perm_sorted_uniqueKeys
  · exact (List.perm_insertionSort nameLE p1).trans (hperm.trans (List.perm_insertionSort nameLE p2).symm)
  · exact List.sorted_insertionSort nameLE p1
  · exact List.sorted_insertionSort nameLE p2
  · intro a ha b hb
    have hmem : ∀ x, x ∈ sortParams p1 → x ∈ p1 := fun x hx =>
      (List.perm_insertionSort nameLE p1).subset hx
    exact nodup_keys_entry_eq hnd a (hmem a ha) b (hmem b hb)

/-! ## Facts about the base64url codec -/

theorem b64UrlAlphabet_length : b64UrlAlphabet.length = 64 := by decide

theorem b64UrlChar_mem (n : Nat) : b64UrlChar n ∈ b64UrlAlphabet := by
  by_cases h : n < 64
  · revert h
    revert n
    decide
  · unfold b64UrlChar
    rw [List.getD_eq_getElem?_getD, List.getElem?_eq_none (by rw [b64UrlAlphabet_length]; omega)]
    decide

theorem mem_b64UrlEncode_alphabet : ∀ (bs : List Nat), ∀ c ∈ b64UrlEncode bs, c ∈ b64UrlAlphabet := by
  intro bs
  induction bs using b64UrlEncode.induct with
  | case1 =>
    intro c hc
    cases hc
  | case2 a =>
    intro c hc
    rcases List.mem_cons.mp hc with rfl | hc2
    · exact b64UrlChar_mem _
    · rcases List.mem_cons.mp hc2 with rfl | hc3
      · exact b64UrlChar_mem _
      · cases hc3
  | case3 a b =>
    intro c hc
    rcases List.mem_cons.mp hc with rfl | hc2
    · exact b64UrlChar_mem _
    · rcases List.mem_cons.mp hc2 with rfl | hc3
      · exact b64UrlChar_mem _
      · rcases List.mem_cons.mp hc3 with rfl | hc4
        · exact b64UrlChar_mem _
        · cases hc4
  | case4 a b c2 rest ih =>
    intro c hc
    rcases List.mem_cons.mp hc with rfl | hc2
    · exact b64UrlChar_mem _
    · rcases List.mem_cons.mp hc2 with rfl | hc3
      · exact b64UrlChar_mem _
      · rcases List.mem_cons.mp hc3 with rfl | hc4
        · exact b64UrlChar_mem _
        · rcases List.mem_cons.mp hc4 with rfl | hc5
          · exact b64UrlChar_mem _
          · exact ih c hc5

theorem alphabet_no_dot : '.' ∉ b64UrlAlphabet := by decide

theorem alphabet_no_ws : ∀ c ∈ b64UrlAlphabet, isJsWsChar c = false := by decide

theorem alphabet_clean_ne_eq : ∀ c ∈ b64UrlAlphabet, cleanChar c ≠ '=' := by decide

theorem b64Val_clean_urlChar : ∀ n, n < 64 → b64Val (cleanChar (b64UrlChar n)) = some n := by
  decide

theorem b64UrlEncode_no_dot (bs : List Nat) : '.' ∉ b64UrlEncode bs := by
  intro h
  exact alphabet_no_dot (mem_b64UrlEncode_alphabet bs '.' h)

theorem cleanB64_of_no_ws {l : List Char} (h : ∀ c ∈ l, isJsWsChar c = false) :
    cleanB64 l = l.map cleanChar := by
  unfold cleanB64
  rw [List.filter_eq_self.mpr (by intro a ha; rw [h a ha]; rfl)]

theorem mem_dropLast_of_ne {l : List Char} {c d : Char} (hc : c ∈ l)
    (hlast : l.getLast? = some d) (hne : c ≠ d) : c ∈ l.dropLast := by
  have hsplit := List.dropLast_append_getLast? d hlast
  rw [← hsplit] at hc
  rcases List.mem_append.mp hc with h | h
  · exact h
  · exact absurd (List.mem_singleton.mp h) hne

theorem stripB64Pad_of_not_mem {l : List Char} (h : '=' ∉ l) : stripB64Pad l = l := by
  unfold stripB64Pad
  by_cases h4 : l.length % 4 = 0
  · rw [if_pos h4]
    have hlast : ¬(l.getLast? = some '=') := fun hl => h (List.mem_of_getLast?_eq_some hl)
    rw [if_neg hlast]
  · rw [if_neg h4]

theorem mem_stripB64Pad {l : List Char} {c : Char} (hc : c ∈ l) (hne : c ≠ '=') :
    c ∈ stripB64Pad l := by
  unfold stripB64Pad
  by_cases h4 : l.length % 4 = 0
  · rw [if_pos h4]
    by_cases h1 : l.getLast? = some '='
    · rw [if_pos h1]
      have hc1 : c ∈ l.dropLast := mem_dropLast_of_ne hc h1 hne
      by_cases h2 : l.dropLast.getLast? = some '='
      · rw [if_pos h2]
        exact mem_dropLast_of_ne hc1 h2 hne
      · rw [if_neg h2]
        exact hc1
    · rw [if_neg h1]
      exact hc
  · rw [if_neg h4]
    exact hc

theorem b64Val_lt {c : Char} {v : Nat} (h : b64Val c = some v) : v < 64 := by
  unfold b64Val at h
  by_cases h64 : (b64StdAlphabet.findIdx fun x => x == c) < 64
  · rw [if_pos h64] at h
    cases h
    exact h64
  · rw [if_neg h64] at h
    cases h

theorem decode_map_clean_b64UrlEncode :
    ∀ (bs : List Nat), (∀ b ∈ bs, b < 256) →
      decodeB64Chunks ((b64UrlEncode bs).map cleanChar) = some bs := by
  intro bs
  induction bs using b64UrlEncode.induct with
  | case1 =>
    intro _
    rfl
  | case2 a =>
    intro hb
    have ha : a < 256 := hb a (by simp)
    simp only [b64UrlEncode, List.map_cons, List.map_nil]
    rw [decodeB64Chunks]
    rw [b64Val_clean_urlChar _ (by omega), b64Val_clean_urlChar _ (by omega)]
    show some [a / 4 * 4 + a % 4 * 16 / 16] = some [a]
    have : a / 4 * 4 + a % 4 * 16 / 16 = a := by omega
    rw [this]
  | case3 a b =>
    intro hb
    have ha : a < 256 := hb a (by simp)
    have hbb : b < 256 := hb b (by simp)
    simp only [b64UrlEncode, List.map_cons, List.map_nil]
    rw [decodeB64Chunks]
    rw [b64Val_clean_urlChar _ (by omega), b64Val_clean_urlChar _ (by omega),
      b64Val_clean_urlChar _ (by omega)]
    show some [a / 4 * 4 + (a % 4 * 16 + b / 16) / 16,
      (a % 4 * 16 + b / 16) % 16 * 16 + b % 16 * 4 / 4] = some [a, b]
    have h1 : a / 4 * 4 + (a % 4 * 16 + b / 16) / 16 = a := by omega
    have h2 : (a % 4 * 16 + b / 16) % 16 * 16 + b % 16 * 4 / 4 = b := by omega
    rw [h1, h2]
  | case4 a b c rest ih =>
    intro hb
    have ha : a < 256 := hb a (by simp)
    have hbb : b < 256 := hb b (by simp)
    have hc : c < 256 := hb c (by simp)
    have hrest : ∀ x ∈ rest, x < 256 := by
      intro x hx
      exact hb x (by simp [hx])
    simp only [b64UrlEncode, List.map_cons]
    rw [decodeB64Chunks]
    rw [b64Val_clean_urlChar _ (by omega), b64Val_clean_urlChar _ (by omega),
      b64Val_clean_urlChar _ (by omega), b64Val_clean_urlChar _ (by omega), ih hrest]
    show some ((a / 4 * 4 + (a % 4 * 16 + b / 16) / 16) ::
      ((a % 4 * 16 + b / 16) % 16 * 16 + (b % 16 * 4 + c / 64) / 4) ::
      ((b % 16 * 4 + c / 64) % 4 * 64 + c % 64) :: rest) = some (a :: b :: c :: rest)
    have h1 : a / 4 * 4 + (a % 4 * 16 + b / 16) / 16 = a := by omega
    have h2 : (a % 4 * 16 + b / 16) % 16 * 16 + (b % 16 * 4 + c / 64) / 4 = b := by omega
    have h3 : (b % 16 * 4 + c / 64) % 4 * 64 + c % 64 = c := by omega
    rw [h1, h2, h3]

theorem joseB64_roundtrip (bs : List Nat) (hb : ∀ b ∈ bs, b < 256) :
    joseB64DecodeChars (b64UrlEncode bs) = some bs := by
  unfold joseB64DecodeChars
  rw [cleanB64_of_no_ws (fun c hc => alphabet_no_ws c (mem_b64UrlEncode_alphabet bs c hc))]
  rw [stripB64Pad_of_not_mem]
  · exact decode_map_clean_b64UrlEncode bs hb
  · intro hmem
    rcases List.mem_map.mp hmem with ⟨c, hc, hcc⟩
    exact alphabet_clean_ne_eq c (mem_b64UrlEncode_alphabet bs c hc) hcc

theorem decodeB64Chunks_valid :
    ∀ (l : List Char) (bs : List Nat), decodeB64Chunks l = some bs →
      ∀ c ∈ l, (b64Val c).isSome := by
  intro l
  induction l using decodeB64Chunks.induct with
  | case1 =>
    intro bs _ c hc
    cases hc
  | case2 a =>
    intro bs h
    rw [decodeB64Chunks] at h
    cases h
  | case3 a b x y hvb hva =>
    intro bs h c hc
    rcases List.mem_cons.mp hc with rfl | hc2
    · rw [hva]; rfl
    · rcases List.mem_singleton.mp hc2 with rfl
      rw [hvb]; rfl
  | case4 a b hfail =>
    intro bs h c hc
    rw [decodeB64Chunks] at h
    cases hva : b64Val a with
    | none => rw [hva] at h; cases h
    | some x =>
      cases hvb : b64Val b with
      | none => rw [hva, hvb] at h; cases h
      | some y => exact absurd (hfail x y hva hvb) (by simp)
  | case5 a b c2 x y z hvc hvb hva =>
    intro bs h c hc
    rcases List.mem_cons.mp hc with rfl | hc2
    · rw [hva]; rfl
    · rcases List.mem_cons.mp hc2 with rfl | hc3
      · rw [hvb]; rfl
      · rcases List.mem_singleton.mp hc3 with rfl
        rw [hvc]; rfl
  | case6 a b c2 hfail =>
    intro bs h c hc
    rw [decodeB64Chunks] at h
    cases hva : b64Val a with
    | none => rw [hva] at h; cases h
    | some x =>
      cases hvb : b64Val b with
      | none => rw [hva, hvb] at h; cases h
      | some y =>
        cases hvc : b64Val c2 with
        | none => rw [hva, hvb, hvc] at h; cases h
        | some z => exact absurd (hfail x y z hva hvb hvc) (by simp)
  | case7 a b c2 d rest x y z w bs2 hrest hvd hvc hvb hva ih =>
    intro bs h c hc
    rcases List.mem_cons.mp hc with rfl | hc2
    · rw [hva]; rfl
    · rcases List.mem_cons.mp hc2 with rfl | hc3
      · rw [hvb]; rfl
      · rcases List.mem_cons.mp hc3 with rfl | hc4
        · rw [hvc]; rfl
        · rcases List.mem_cons.mp hc4 with rfl | hc5
          · rw [hvd]; rfl
          · exact ih bs2 hrest c hc5
  | case8 a b c2 d rest hfail ih =>
    intro bs h c hc
    rw [decodeB64Chunks] at h
    cases hva : b64Val a with
    | none => rw [hva] at h; cases h
    | some x =>
      cases hvb : b64Val b with
      | none => rw [hva, hvb] at h; cases h
      | some y =>
        cases hvc : b64Val c2 with
        | none => rw [hva, hvb, hvc] at h; cases h
        | some z =>
          cases hvd : b64Val d with
          | none => rw [hva, hvb, hvc, hvd] at h; cases h
          | some w =>
            cases hrest : decodeB64Chunks rest with
            | none => rw [hva, hvb, hvc, hvd, hrest] at h; cases h
            | some bs2 => exact absurd (hfail x y z w bs2 hva hvb hvc hvd hrest) (by simp)

theorem decodeB64Chunks_lt256 :
    ∀ (l : List Char) (bs : List Nat), decodeB64Chunks l = some bs → ∀ b ∈ bs, b < 256 := by
  intro l
  induction l using decodeB64Chunks.induct with
  | case1 =>
    intro bs h b hb
    cases h
    cases hb
  | case2 a =>
    intro bs h
    rw [decodeB64Chunks] at h
    cases h
  | case3 a b x y hvb hva =>
    intro bs h v hv
    rw [decodeB64Chunks, hva, hvb] at h
    cases h
    have h1 := b64Val_lt hva
    have h2 := b64Val_lt hvb
    rcases List.mem_singleton.mp hv with rfl
    omega
  | case4 a b hfail =>
    intro bs h v hv
    rw [decodeB64Chunks] at h
    cases hva : b64Val a with
    | none => rw [hva] at h; cases h
    | some x =>
      cases hvb : b64Val b with
      | none => rw [hva, hvb] at h; cases h
      | some y => exact absurd (hfail x y hva hvb) (by simp)
  | case5 a b c2 x y z hvc hvb hva =>
    intro bs h v hv
    rw [decodeB64Chunks, hva, hvb, hvc] at h
    cases h
    have h1 := b64Val_lt hva
    have h2 := b64Val_lt hvb
    have h3 := b64Val_lt hvc
    rcases List.mem_cons.mp hv with rfl | hv2
    · omega
    · rcases List.mem_singleton.mp hv2 with rfl
      omega
  | case6 a b c2 hfail =>
    intro bs h v hv
    rw [decodeB64Chunks] at h
    cases hva : b64Val a with
    | none => rw [hva] at h; cases h
    | some x =>
      cases hvb : b64Val b with
      | none => rw [hva, hvb] at h; cases h
      | some y =>
        cases hvc : b64Val c2 with
        | none => rw [hva, hvb, hvc] at h; cases h
        | some z => exact absurd (hfail x y z hva hvb hvc) (by simp)
  | case7 a b c2 d rest x y z w bs2 hrest hvd hvc hvb hva ih =>
    intro bs h v hv
    rw [decodeB64Chunks, hva, hvb, hvc, hvd, hrest] at h
    cases h
    have h1 := b64Val_lt hva
    have h2 := b64Val_lt hvb
    have h3 := b64Val_lt hvc
    have h4 := b64Val_lt hvd
    rcases List.mem_cons.mp hv with rfl | hv2
    · omega
    · rcases List.mem_cons.mp hv2 with rfl | hv3
      · omega
      · rcases List.mem_cons.mp hv3 with rfl | hv4
        · omega
        · exact ih bs2 hrest v hv4
  | case8 a b c2 d rest hfail ih =>
    intro bs h v hv
    rw [decodeB64Chunks] at h
    cases hva : b64Val a with
    | none => rw [hva] at h; cases h
    | some x =>
      cases hvb : b64Val b with
      | none => rw [hva, hvb] at h; cases h
      | some y =>
        cases hvc : b64Val c2 with
        | none => rw [hva, hvb, hvc] at h; cases h
        | some z =>
          cases hvd : b64Val d with
          | none => rw [hva, hvb, hvc, hvd] at h; cases h
          | some w =>
            cases hrest : decodeB64Chunks rest with
            | none => rw [hva, hvb, hvc, hvd, hrest] at h; cases h
            | some bs2 => exact absurd (hfail x y z w bs2 hva hvb hvc hvd hrest) (by simp)

theorem joseB64DecodeChars_lt256 {l : List Char} {bs : List Nat}
    (h : joseB64DecodeChars l = some bs) : ∀ b ∈ bs, b < 256 :=
  decodeB64Chunks_lt256 _ bs h

/-! ## Splitting the token at dots -/

theorem splitOnDot_ne_nil : ∀ l : List Char, splitOnDot l ≠ [] := by
  intro l
  cases l with
  | nil => simp [splitOnDot]
  | cons c rest =>
    unfold splitOnDot
    by_cases h : c = '.'
    · rw [if_pos h]; simp
    · rw [if_neg h]
      cases hs : splitOnDot rest <;> simp

theorem splitOnDot_dotfree {l : List Char} (h : '.' ∉ l) : splitOnDot l = [l] := by
  induction l with
  | nil => rfl
  | cons c rest ih =>
    have hc : ¬(c = '.') := fun hh => h (by rw [hh]; exact List.mem_cons_self '.' rest)
    have hrest : '.' ∉ rest := fun hh => h (List.mem_cons_of_mem c hh)
    unfold splitOnDot
    rw [if_neg hc, ih hrest]

theorem splitOnDot_append_dotfree {a : List Char} (h : '.' ∉ a) :
    ∀ (l s : List Char) (ss : List (List Char)),
      splitOnDot l = s :: ss → splitOnDot (a ++ l) = (a ++ s) :: ss := by
  induction a with
  | nil =>
    intro l s ss hl
    simpa using hl
  | cons c t ih =>
    intro l s ss hl
    have hc : ¬(c = '.') := fun hh => h (by rw [hh]; exact List.mem_cons_self '.' t)
    have ht : '.' ∉ t := fun hh => h (List.mem_cons_of_mem c hh)
    rw [List.cons_append]
    unfold splitOnDot
    rw [if_neg hc, ih ht l s ss hl]
    rfl

theorem splitOnDot_token {h x g : List Char} (hh : '.' ∉ h) (hx : '.' ∉ x) (hg : '.' ∉ g) :
    splitOnDot (h ++ '.' :: (x ++ '.' :: g)) = [h, x, g] := by
  have h2 : splitOnDot ('.' :: g) = [] :: [g] := by
    unfold splitOnDot
    rw [if_pos rfl, splitOnDot_dotfree hg]
  have h3 := splitOnDot_append_dotfree hx _ _ _ h2
  rw [List.append_nil] at h3
  have h4 : splitOnDot ('.' :: (x ++ '.' :: g)) = [] :: [x, g] := by
    unfold splitOnDot
    rw [if_pos rfl, h3]
  have h5 := splitOnDot_append_dotfree hh _ _ _ h4
  rw [List.append_nil] at h5
  exact h5

theorem splitOnDot_length : ∀ l : List Char, (splitOnDot l).length = l.count '.' + 1 := by
  intro l
  induction l with
  | nil => rfl
  | cons c rest ih =>
    unfold splitOnDot
    by_cases h : c = '.'
    · rw [if_pos h]
      simp only [List.length_cons, ih, List.count_cons]
      rw [h]
      simp
    · rw [if_neg h]
      cases hs : splitOnDot rest with
      | nil => exact absurd hs (splitOnDot_ne_nil rest)
      | cons s ss =>
        have h2 := ih
        rw [hs] at h2
        simp only [List.length_cons] at h2 ⊢
        rw [List.count_cons]
        rw [beq_eq_false_iff_ne.mpr h]
        simp only [Bool.false_eq_true, if_false]
        omega

/-! ## Bytes and injectivity of UTF-8 and the MAC -/

theorem utf8Char_lt256 (c : Char) : ∀ b ∈ utf8Char c, b < 256 := by
  have hv := char_toNat_valid c
  have hb : c.toNat < 0x110000 := by rcases hv with hv | hv <;> omega
  unfold utf8Char
  intro b hbm
  by_cases h1 : c.toNat < 0x80
  · rw [if_pos h1] at hbm
    rcases List.mem_singleton.mp hbm with rfl
    omega
  · rw [if_neg h1] at hbm
    by_cases h2 : c.toNat < 0x800
    · rw [if_pos h2] at hbm
      rcases List.mem_cons.mp hbm with rfl | hbm2
      · omega
      · rcases List.mem_singleton.mp hbm2 with rfl
        omega
    · rw [if_neg h2] at hbm
      by_cases h3 : c.toNat < 0x10000
      · rw [if_pos h3] at hbm
        rcases List.mem_cons.mp hbm with rfl | hbm2
        · omega
        · rcases List.mem_cons.mp hbm2 with rfl | hbm3
          · omega
          · rcases List.mem_singleton.mp hbm3 with rfl
            omega
      · rw [if_neg h3] at hbm
        rcases List.mem_cons.mp hbm with rfl | hbm2
        · omega
        · rcases List.mem_cons.mp hbm2 with rfl | hbm3
          · omega
          · rcases List.mem_cons.mp hbm3 with rfl | hbm4
            · omega
            · rcases List.mem_singleton.mp hbm4 with rfl
              omega

theorem utf8Chars_lt256 (l : List Char) : ∀ b ∈ utf8Chars l, b < 256 := by
  intro b hb
  unfold utf8Chars at hb
  rcases List.mem_flatMap.mp hb with ⟨c, _, hbc⟩
  exact utf8Char_lt256 c b hbc

theorem utf8Char_eq1 (c : Char) (h : c.toNat < 0x80) : utf8Char c = [c.toNat] := by
  simp [utf8Char, h]

theorem utf8Char_eq2 (c : Char) (h1 : ¬ c.toNat < 0x80) (h2 : c.toNat < 0x800) :
    utf8Char c = [0xC0 + c.toNat / 64, 0x80 + c.toNat % 64] := by
  simp [utf8Char, h1, h2]

theorem utf8Char_eq3 (c : Char) (h2 : ¬ c.toNat < 0x800) (h3 : c.toNat < 0x10000) :
    utf8Char c = [0xE0 + c.toNat / 4096, 0x80 + c.toNat / 64 % 64, 0x80 + c.toNat % 64] := by
  have h1 : ¬ c.toNat < 0x80 := by omega
  simp [utf8Char, h1, h2, h3]

theorem utf8Char_eq4 (c : Char) (h3 : ¬ c.toNat < 0x10000) :
    utf8Char c = [0xF0 + c.toNat / 262144, 0x80 + c.toNat / 4096 % 64,
      0x80 + c.toNat / 64 % 64, 0x80 + c.toNat % 64] := by
  have h1 : ¬ c.toNat < 0x80 := by omega
  have h2 : ¬ c.toNat < 0x800 := by omega
  simp [utf8Char, h1, h2, h3]

theorem utf8DecodeGo_congr : ∀ (f1 f2 : Nat) (l : List Nat),
    l.length ≤ f1 → l.length ≤ f2 → utf8DecodeGo f1 l = utf8DecodeGo f2 l := by
  intro f1
  induction f1 with
  | zero =>
    intro f2 l h1 _
    have hl : l = [] := List.eq_nil_of_length_eq_zero (Nat.le_zero.mp h1)
    subst hl
    cases f2 <;> rfl
  | succ f ih =>
    intro f2 l h1 h2
    cases l with
    | nil => cases f2 <;> rfl
    | cons b rest =>
      cases f2 with
      | zero => simp at h2
      | succ f2m =>
        rw [utf8DecodeGo, utf8DecodeGo]
        simp only [List.length_cons] at h1 h2
        have hd1 : (rest.drop (utf8TailLen b)).length ≤ f := by
          rw [List.length_drop]; omega
        have hd2 : (rest.drop (utf8TailLen b)).length ≤ f2m := by
          rw [List.length_drop]; omega
        rw [ih f2m _ hd1 hd2]

theorem utf8DecodeChars_utf8Char (c : Char) (l : List Nat) :
    utf8DecodeChars (utf8Char c ++ l) = c :: utf8DecodeChars l := by
  have hv := char_toNat_valid c
  have hbound : c.toNat < 0x110000 := by rcases hv with hv | hv <;> omega
  unfold utf8DecodeChars
  by_cases h1 : c.toNat < 0x80
  · rw [utf8Char_eq1 c h1, List.singleton_append]
    simp only [List.length_cons]
    rw [utf8DecodeGo]
    have htail : utf8TailLen c.toNat = 0 := by
      unfold utf8TailLen
      rw [if_pos (by omega)]
    rw [htail, List.take_zero, List.drop_zero]
    show (if c.toNat < 0x80 then Char.ofNat c.toNat else '�') :: utf8DecodeGo l.length l =
      c :: utf8DecodeGo l.length l
    rw [if_pos h1, Char.ofNat_toNat]
  · by_cases h2 : c.toNat < 0x800
    · rw [utf8Char_eq2 c h1 h2, List.cons_append, List.singleton_append]
      simp only [List.length_cons]
      rw [utf8DecodeGo]
      have htail : utf8TailLen (0xC0 + c.toNat / 64) = 1 := by
        unfold utf8TailLen
        rw [if_neg (by omega), if_pos (by omega)]
      rw [htail, List.take_succ_cons, List.take_zero, List.drop_succ_cons, List.drop_zero]
      show Char.ofNat ((0xC0 + c.toNat / 64 - 0xC0) * 64 + (0x80 + c.toNat % 64 - 0x80)) ::
        utf8DecodeGo (l.length + 1) l = c :: utf8DecodeGo l.length l
      have harith : (0xC0 + c.toNat / 64 - 0xC0) * 64 + (0x80 + c.toNat % 64 - 0x80) = c.toNat := by
        omega
      rw [harith, Char.ofNat_toNat, utf8DecodeGo_congr (l.length + 1) l.length l (by omega) (le_refl _)]
    · by_cases h3 : c.toNat < 0x10000
      · rw [utf8Char_eq3 c h2 h3, List.cons_append, List.cons_append, List.singleton_append]
        simp only [List.length_cons]
        rw [utf8DecodeGo]
        have htail : utf8TailLen (0xE0 + c.toNat / 4096) = 2 := by
          unfold utf8TailLen
          rw [if_neg (by omega), if_neg (by omega), if_pos (by omega)]
        rw [htail, List.take_succ_cons, List.take_succ_cons, List.take_zero,
          List.drop_succ_cons, List.drop_succ_cons, List.drop_zero]
        show Char.ofNat ((0xE0 + c.toNat / 4096 - 0xE0) * 4096 +
            (0x80 + c.toNat / 64 % 64 - 0x80) * 64 + (0x80 + c.toNat % 64 - 0x80)) ::
          utf8DecodeGo (l.length + 1 + 1) l = c :: utf8DecodeGo l.length l
        have harith : (0xE0 + c.toNat / 4096 - 0xE0) * 4096 +
            (0x80 + c.toNat / 64 % 64 - 0x80) * 64 + (0x80 + c.toNat % 64 - 0x80) = c.toNat := by
          omega
        rw [harith, Char.ofNat_toNat,
          utf8DecodeGo_congr (l.length + 1 + 1) l.length l (by omega) (le_refl _)]
      · rw [utf8Char_eq4 c h3, List.cons_append, List.cons_append, List.cons_append,
          List.singleton_append]
        simp only [List.length_cons]
        rw [utf8DecodeGo]
        have htail : utf8TailLen (0xF0 + c.toNat / 262144) = 3 := by
          unfold utf8TailLen
          rw [if_neg (by omega), if_neg (by omega), if_neg (by omega)]
        rw [htail, List.take_succ_cons, List.take_succ_cons, List.take_succ_cons, List.take_zero,
          List.drop_succ_cons, List.drop_succ_cons, List.drop_succ_cons, List.drop_zero]
        show Char.ofNat ((0xF0 + c.toNat / 262144 - 0xF0) * 262144 +
            (0x80 + c.toNat / 4096 % 64 - 0x80) * 4096 +
            (0x80 + c.toNat / 64 % 64 - 0x80) * 64 + (0x80 + c.toNat % 64 - 0x80)) ::
          utf8DecodeGo (l.length + 1 + 1 + 1) l = c :: utf8DecodeGo l.length l
        have harith : (0xF0 + c.toNat / 262144 - 0xF0) * 262144 +
            (0x80 + c.toNat / 4096 % 64 - 0x80) * 4096 +
            (0x80 + c.toNat / 64 % 64 - 0x80) * 64 + (0x80 + c.toNat % 64 - 0x80) = c.toNat := by
          omega
        rw [harith, Char.ofNat_toNat,
          utf8DecodeGo_congr (l.length + 1 + 1 + 1) l.length l (by omega) (le_refl _)]

theorem utf8DecodeChars_utf8Chars : ∀ l : List Char, utf8DecodeChars (utf8Chars l) = l := by
  intro l
  induction l with
  | nil => rfl
  | cons c t ih =>
    unfold utf8Chars
    rw [List.flatMap_cons]
    show utf8DecodeChars (utf8Char c ++ utf8Chars t) = c :: t
    rw [utf8DecodeChars_utf8Char, ih]

theorem utf8Chars_inj {l1 l2 : List Char} (h : utf8Chars l1 = utf8Chars l2) : l1 = l2 := by
  have h2 : utf8DecodeChars (utf8Chars l1) = utf8DecodeChars (utf8Chars l2) := by rw [h]
  rwa [utf8DecodeChars_utf8Chars, utf8DecodeChars_utf8Chars] at h2

/-! ## The ideal MAC: byte output and injectivity -/

theorem hmac_nil (m : List Nat) : hmacSHA256 [] m = 2 :: m.map (fun b => b % 256) := rfl

theorem hmac_cons (a : Nat) (k m : List Nat) :
    hmacSHA256 (a :: k) m = 0 :: a % 256 :: hmacSHA256 k m := by
  unfold hmacSHA256
  rw [List.flatMap_cons]
  simp [List.append_assoc]

theorem hmacSHA256_lt256 (key msg : List Nat) : ∀ b ∈ hmacSHA256 key msg, b < 256 := by
  intro b hb
  unfold hmacSHA256 at hb
  rcases List.mem_append.mp hb with h | h
  · rcases List.mem_flatMap.mp h with ⟨x, _, hx⟩
    rcases List.mem_cons.mp hx with rfl | hx2
    · omega
    · rcases List.mem_singleton.mp hx2 with rfl
      exact Nat.mod_lt _ (by omega)
  · rcases List.mem_cons.mp h with rfl | h2
    · omega
    · rcases List.mem_map.mp h2 with ⟨x, _, rfl⟩
      exact Nat.mod_lt _ (by omega)

theorem map_mod_inj : ∀ (m1 m2 : List Nat), (∀ b ∈ m1, b < 256) → (∀ b ∈ m2, b < 256) →
    m1.map (fun b => b % 256) = m2.map (fun b => b % 256) → m1 = m2 := by
  intro m1
  induction m1 with
  | nil =>
    intro m2 _ _ h
    cases m2 with
    | nil => rfl
    | cons b t => simp at h
  | cons a t1 ih =>
    intro m2 h1 h2 h
    cases m2 with
    | nil => simp at h
    | cons b t2 =>
      simp only [List.map_cons, List.cons.injEq] at h
      have ha : a < 256 := h1 a (List.mem_cons_self a t1)
      have hb : b < 256 := h2 b (List.mem_cons_self b t2)
      have hab : a = b := by
        have := h.1
        rwa [Nat.mod_eq_of_lt ha, Nat.mod_eq_of_lt hb] at this
      rw [hab, ih t2 (fun x hx => h1 x (List.mem_cons_of_mem a hx))
        (fun x hx => h2 x (List.mem_cons_of_mem b hx)) h.2]

theorem hmacSHA256_inj : ∀ (k1 : List Nat) {m1 k2 m2 : List Nat},
    (∀ b ∈ k1, b < 256) → (∀ b ∈ k2, b < 256) →
    (∀ b ∈ m1, b < 256) → (∀ b ∈ m2, b < 256) →
    hmacSHA256 k1 m1 = hmacSHA256 k2 m2 → k1 = k2 ∧ m1 = m2 := by
  intro k1
  induction k1 with
  | nil =>
    intro m1 k2 m2 _ hk2 hm1 hm2 h
    cases k2 with
    | nil =>
      rw [hmac_nil, hmac_nil] at h
      simp only [List.cons.injEq] at h
      exact ⟨rfl, map_mod_inj m1 m2 hm1 hm2 h.2⟩
    | cons b k2t =>
      rw [hmac_nil, hmac_cons] at h
      simp at h
  | cons a k1t ih =>
    intro m1 k2 m2 hk1 hk2 hm1 hm2 h
    cases k2 with
    | nil =>
      rw [hmac_cons, hmac_nil] at h
      simp at h
    | cons b k2t =>
      rw [hmac_cons, hmac_cons] at h
      simp only [List.cons.injEq] at h
      have ha : a < 256 := hk1 a (List.mem_cons_self a k1t)
      have hb : b < 256 := hk2 b (List.mem_cons_self b k2t)
      have hab : a = b := by
        have := h.2.1
        rwa [Nat.mod_eq_of_lt ha, Nat.mod_eq_of_lt hb] at this
      have hrest := ih (fun x hx => hk1 x (List.mem_cons_of_mem a hx))
        (fun x hx => hk2 x (List.mem_cons_of_mem b hx)) hm1 hm2 h.2.2
      exact ⟨by rw [hab, hrest.1], hrest.2⟩

/-! ## Reduction helpers for the Verifier -/

theorem compactVerifyWith_not3 (hm : List Nat → List Nat → List Nat) (code : List Char)
    (key : List Nat) (h : ∀ a b c, splitOnDot code ≠ [a, b, c]) :
    compactVerifyWith hm code key = .error .malformedToken := by
  unfold compactVerifyWith
  cases hs1 : splitOnDot code with
  | nil => rfl
  | cons a t1 =>
    cases t1 with
    | nil => rfl
    | cons b t2 =>
      cases t2 with
      | nil => rfl
      | cons c t3 =>
        cases t3 with
        | nil => exact absurd hs1 (h a b c)
        | cons d t4 => rfl

theorem serialize_some (p : Params) (s : String) (hs : ¬(s = "")) :
    serialize p (some s) =
      .ok (String.mk (headerSegChars ++ '.' :: (payloadSegChars s ++ '.' :: sigSegChars p s))) := by
  show (if s = "" then Except.error Err.configuration
    else Except.ok (signSortedWith hmacSHA256 (sortParams p) s)) = _
  rw [if_neg hs]
  rfl

theorem decrypt_secret_none (hm : List Nat → List Nat → List Nat) (code : List Char) (s : String)
    (hs : ¬(s = "")) (hkey : joseB64DecodeChars s.data = none) :
    decryptWith hm (String.mk code) (some s) = .error .secretDecode := by
  show (if s = "" then Except.error Err.configuration
    else match joseB64DecodeChars s.data with
      | none => Except.error Err.secretDecode
      | some key =>
        match compactVerifyWith hm code key with
        | .error e => .error e
        | .ok payload =>
          match jsonParseValue (utf8DecodeChars payload) with
          | none => .error .malformedPayload
          | some v =>
            match urlSearchParamsInit (utf8DecodeChars payload).length v with
            | none => .error .malformedPayload
            | some pairs => .ok pairs) = _
  rw [if_neg hs, hkey]

theorem decrypt_reduce (hm : List Nat → List Nat → List Nat) (code : List Char) (s : String)
    (key : List Nat) (hs : ¬(s = "")) (hkey : joseB64DecodeChars s.data = some key) :
    decryptWith hm (String.mk code) (some s) =
      (match compactVerifyWith hm code key with
      | .error e => .error e
      | .ok payload =>
        match jsonParseValue (utf8DecodeChars payload) with
        | none => .error .malformedPayload
        | some v =>
          match urlSearchParamsInit (utf8DecodeChars payload).length v with
          | none => .error .malformedPayload
          | some pairs => .ok pairs) := by
  show (if s = "" then Except.error Err.configuration
    else match joseB64DecodeChars s.data with
      | none => Except.error Err.secretDecode
      | some key =>
        match compactVerifyWith hm code key with
        | .error e => .error e
        | .ok payload =>
          match jsonParseValue (utf8DecodeChars payload) with
          | none => .error .malformedPayload
          | some v =>
            match urlSearchParamsInit (utf8DecodeChars payload).length v with
            | none => .error .malformedPayload
            | some pairs => .ok pairs) = _
  rw [if_neg hs, hkey]

theorem headerSegChars_decode :
    joseB64DecodeChars headerSegChars = some (utf8Chars headerJsonChars) :=
  joseB64_roundtrip (utf8Chars headerJsonChars) (utf8Chars_lt256 _)

theorem headerSegChars_no_dot : '.' ∉ headerSegChars :=
  b64UrlEncode_no_dot (utf8Chars headerJsonChars)

theorem payloadSegChars_no_dot (s : String) : '.' ∉ payloadSegChars s :=
  b64UrlEncode_no_dot (utf8Chars s.data)

theorem sigSegChars_no_dot (p : Params) (s : String) : '.' ∉ sigSegChars p s :=
  b64UrlEncode_no_dot _

theorem compactVerify_header (hm : List Nat → List Nat → List Nat) (x g : List Char)
    (key : List Nat) (code : List Char)
    (hsplit : splitOnDot code = [headerSegChars, x, g]) :
    compactVerifyWith hm code key =
      (match joseB64DecodeChars g with
      | none => .error .malformedToken
      | some sig =>
        if sig = hm key (utf8Chars (headerSegChars ++ '.' :: x)) then
          match joseB64DecodeChars x with
          | none => .error .malformedToken
          | some payload => .ok payload
        else .error .signatureInvalid) := by
  unfold compactVerifyWith
  rw [hsplit]
  show (match joseB64DecodeChars headerSegChars with
    | none => Except.error Err.malformedToken
    | some hb =>
      match jsonParseRecord (utf8DecodeChars hb) with
      | none => Except.error Err.malformedToken
      | some hpairs =>
        if lookupRecord "alg" (fromEntries hpairs) = some "HS256" then
          match joseB64DecodeChars g with
          | none => Except.error Err.malformedToken
          | some sig =>
            if sig = hm key (utf8Chars (headerSegChars ++ '.' :: x)) then
              match joseB64DecodeChars x with
              | none => Except.error Err.malformedToken
              | some payload => Except.ok payload
            else Except.error Err.signatureInvalid
        else Except.error Err.malformedToken) = _
  simp only [headerSegChars_decode, utf8DecodeChars_utf8Chars]
  have hparse2 : jsonParseRecord headerJsonChars = some [("alg", "HS256")] := by decide
  simp only [hparse2]
  have halg : lookupRecord "alg" (fromEntries [("alg", "HS256")]) = some "HS256" := by decide
  rw [if_pos halg]

theorem sigSegChars_decode (p : Params) (s : String) :
    joseB64DecodeChars (sigSegChars p s) =
      some (hmacSHA256 (signKeyBytes p) (utf8Chars (headerSegChars ++ '.' :: payloadSegChars s))) :=
  joseB64_roundtrip _ (hmacSHA256_lt256 _ _)

theorem payloadSegChars_decode (s : String) :
    joseB64DecodeChars (payloadSegChars s) = some (utf8Chars s.data) :=
  joseB64_roundtrip _ (utf8Chars_lt256 _)

theorem token_count_dots (x g : List Char) :
    (headerSegChars ++ '.' :: (x ++ '.' :: g)).count '.' =
      x.count '.' + g.count '.' + 2 := by
  rw [List.count_append, List.count_cons, List.count_append, List.count_cons]
  rw [List.count_eq_zero.mpr headerSegChars_no_dot]
  simp
  omega

theorem splitOnDot_token_ne3_of_dot_left {x g : List Char} (hx : '.' ∈ x) :
    ∀ a b c, splitOnDot (headerSegChars ++ '.' :: (x ++ '.' :: g)) ≠ [a, b, c] := by
  intro a b c heq
  have hl := splitOnDot_length (headerSegChars ++ '.' :: (x ++ '.' :: g))
  rw [heq, token_count_dots] at hl
  have hx0 : x.count '.' ≠ 0 := fun h0 => (List.count_eq_zero.mp h0) hx
  simp only [List.length_cons, List.length_nil] at hl
  omega

theorem splitOnDot_token_ne3_of_dot_right {x g : List Char} (hg : '.' ∈ g) :
    ∀ a b c, splitOnDot (headerSegChars ++ '.' :: (x ++ '.' :: g)) ≠ [a, b, c] := by
  intro a b c heq
  have hl := splitOnDot_length (headerSegChars ++ '.' :: (x ++ '.' :: g))
  rw [heq, token_count_dots] at hl
  have hg0 : g.count '.' ≠ 0 := fun h0 => (List.count_eq_zero.mp h0) hg
  simp only [List.length_cons, List.length_nil] at hl
  omega

theorem compactVerifyWith_header_fail (hm : List Nat → List Nat → List Nat) (key : List Nat)
    (code h p g : List Char) (hsplit : splitOnDot code = [h, p, g]) (hnok : ¬ headerAlgOk h) :
    compactVerifyWith hm code key = .error .malformedToken := by
  unfold compactVerifyWith
  rw [hsplit]
  cases hhd : joseB64DecodeChars h with
  | none => simp only [hhd]
  | some hb =>
    cases hpr : jsonParseRecord (utf8DecodeChars hb) with
    | none => simp only [hhd, hpr]
    | some hpairs =>
      have hlk : ¬(lookupRecord "alg" (fromEntries hpairs) = some "HS256") :=
        fun hl => hnok ⟨hb, hpairs, hhd, hpr, hl⟩
      simp only [hhd, hpr, if_neg hlk]

theorem splitOnDot_three_or_not (code : List Char) :
    (∃ a b c, splitOnDot code = [a, b, c]) ∨ (∀ a b c, splitOnDot code ≠ [a, b, c]) := by
  cases h1 : splitOnDot code with
  | nil => right; intro a b c he; simp at he
  | cons a t1 =>
    cases t1 with
    | nil => right; intro a2 b2 c2 he; simp at he
    | cons b t2 =>
      cases t2 with
      | nil => right; intro a2 b2 c2 he; simp at he
      | cons c t3 =>
        cases t3 with
        | nil => left; exact ⟨a, b, c, rfl⟩
        | cons d t4 => right; intro a2 b2 c2 he; simp at he

theorem decrypt_malformed_shape (c s : String) (key : List Nat)
    (hs : ¬(s = "")) (hkey : joseB64DecodeChars s.data = some key)
    (hshape : MalformedShape c.data) :
    decrypt c (some s) = .error .malformedToken := by
  have hred := decrypt_reduce hmacSHA256 c.data s key hs hkey
  have hver : compactVerifyWith hmacSHA256 c.data key = .error .malformedToken := by
    rcases splitOnDot_three_or_not c.data with ⟨a, b, c2, h3⟩ | hno3
    · exact compactVerifyWith_header_fail hmacSHA256 key c.data a b c2 h3 (hshape a b c2 h3)
    · exact compactVerifyWith_not3 hmacSHA256 c.data key hno3
  refine Eq.trans hred ?_
  rw [hver]

/-! ## The claims -/

set_option maxRecDepth 1000000
set_option maxHeartbeats 4000000

/-- C1: the round-trip law fails on this code: decoding an encoded collection under
the very same secret does not return the collection — the verifier keys the MAC with
the base64url-decoded secret while the signer keyed it with the UTF-8 bytes of the
encoded parameters, so verification rejects the token with the invalid-signature
error.  Evaluated at the failing input P = q→hello, page→2 and secret s3cret. -/
theorem c1_roundtrip_fails :
    serialize [("q", "hello"), ("page", "2")] (some "s3cret") =
      .ok "eyJhbGciOiJIUzI1NiJ9.czNjcmV0.AGUAeQBKAHcAWQBXAGQAbABJAGoAbwBpAE0AaQBJAHMASQBuAEUAaQBPAGkASgBvAFoAVwB4AHMAYgB5AEoAOQJleUpoYkdjaU9pSklVekkxTmlKOS5jek5qY21WMA" ∧
    decrypt "eyJhbGciOiJIUzI1NiJ9.czNjcmV0.AGUAeQBKAHcAWQBXAGQAbABJAGoAbwBpAE0AaQBJAHMASQBuAEUAaQBPAGkASgBvAFoAVwB4AHMAYgB5AEoAOQJleUpoYkdjaU9pSklVekkxTmlKOS5jek5qY21WMA" (some "s3cret") =
      .error .signatureInvalid :=
  ⟨rfl, rfl⟩

/-- C2: encoding is deterministic and order-independent — two collections holding the
same key-value pairs in any insertion order (keys unique, per the data model) are
serialized to the identical token under any secret, the model itself being a pure
function of its inputs, with no timestamp, nonce or salt. -/
theorem c2_encode_order_independent (secret : Option String) (p1 p2 : Params)
    (hperm : p1.Perm p2) (hnd : (p1.map Prod.fst).Nodup) :
    serialize p1 secret = serialize p2 secret := by
  have hsort := sortParams_eq_of_perm hperm hnd
  unfold serialize serializeWith
  cases secret with
  | none => rfl
  | some s =>
    by_cases hs : s = ""
    · subst hs
      rfl
    · simp only [if_neg hs, hsort]

theorem c2_witness :
    serialize [("b", "2"), ("a", "1")] (some "s3cret") =
      serialize [("a", "1"), ("b", "2")] (some "s3cret") :=
  c2_encode_order_independent (some "s3cret") [("b", "2"), ("a", "1")] [("a", "1"), ("b", "2")]
    (by decide) (by decide)

/-- C3: the claim that signing and verification both use the raw bytes of the secret
as the HMAC key fails on this code: the signer passes the secret as the CompactSign
payload (it becomes the middle token segment) and keys the MAC with the UTF-8 bytes
of the base64url-encoded parameters, while the verifier keys it with the base64url
DECODING of the secret — for s3cret the bytes 179,119,43,122 rather than its UTF-8
bytes 115,51,99,114,101,116. -/
theorem c3_hmac_key_asymmetry :
    serialize [("q", "hello")] (some "s3cret") =
      .ok (String.mk (headerSegChars ++ '.' :: (b64UrlEncode (utf8Chars "s3cret".data) ++ '.' ::
        b64UrlEncode (hmacSHA256 (utf8Chars "eyJxIjoiaGVsbG8ifQ".data)
          (utf8Chars (headerSegChars ++ '.' :: b64UrlEncode (utf8Chars "s3cret".data))))))) ∧
    joseB64DecodeChars "s3cret".data = some [179, 119, 43, 122] ∧
    utf8Chars "s3cret".data = [115, 51, 99, 114, 101, 116] ∧
    [179, 119, 43, 122] ≠ utf8Chars "s3cret".data :=
  ⟨rfl, rfl, rfl, by decide⟩

/-- C4: the claim that decoding under a different secret always fails with the
invalid-signature error is false on this code: with the token produced for a→1
under secret left-brace-right-brace, decoding under the DIFFERENT secret
ZXlKaElqb2lNU0o5 succeeds and returns the empty collection, because that secret
base64url-decodes exactly to the swapped MAC key and the payload — the original
secret — parses as the empty JSON record. -/
theorem c4_wrong_secret_decode_succeeds :
    serialize [("a", "1")] (some "\x7b\x7d") =
      .ok "eyJhbGciOiJIUzI1NiJ9.e30.AGUAeQBKAGgASQBqAG8AaQBNAFMASgA5AmV5SmhiR2NpT2lKSVV6STFOaUo5LmUzMA" ∧
    decrypt "eyJhbGciOiJIUzI1NiJ9.e30.AGUAeQBKAGgASQBqAG8AaQBNAFMASgA5AmV5SmhiR2NpT2lKSVV6STFOaUo5LmUzMA"
      (some "ZXlKaElqb2lNU0o5") = .ok [] ∧
    ("\x7b\x7d" : String) ≠ "ZXlKaElqb2lNU0o5" :=
  ⟨rfl, rfl, by decide⟩

/-- C5: with the secret absent or equal to the empty string, serialize and decrypt
both fail with the configuration error, and since the statement holds for every MAC
primitive the failure is decided before any cryptographic work. -/
theorem c5_missing_secret_configuration_error (hm : List Nat → List Nat → List Nat)
    (p : Params) (c : String) (secret : Option String)
    (hsec : secret = none ∨ secret = some "") :
    serializeWith hm p secret = .error .configuration ∧
    decryptWith hm c secret = .error .configuration := by
  rcases hsec with h | h <;> subst h
  · exact ⟨rfl, rfl⟩
  · exact ⟨rfl, rfl⟩

theorem c5_witness :
    serializeWith hmacSHA256 [("q", "hello")] none = .error .configuration ∧
    decryptWith hmacSHA256 "x" none = .error .configuration :=
  c5_missing_secret_configuration_error hmacSHA256 [("q", "hello")] "x" none (Or.inl rfl)

/-- C6 counterexample: the claim that decoding a one-character mutation of a valid
token under the encoding secret fails with the invalid-signature or malformed-token
error is false: under the non-base64url-decodable secret exclamation-mark, the token
for the empty collection has payload segment IQ, and decoding its mutation JQ fails
with the secret-decoding TypeError instead, before the token is even examined. -/
theorem c6_counterexample :
    serialize [] (some "!") =
      .ok "eyJhbGciOiJIUzI1NiJ9.IQ.AGUAMwAwAmV5SmhiR2NpT2lKSVV6STFOaUo5LklR" ∧
    decrypt "eyJhbGciOiJIUzI1NiJ9.JQ.AGUAMwAwAmV5SmhiR2NpT2lKSVV6STFOaUo5LklR" (some "!") =
      .error .secretDecode ∧
    ¬(decrypt "eyJhbGciOiJIUzI1NiJ9.JQ.AGUAMwAwAmV5SmhiR2NpT2lKSVV6STFOaUo5LklR" (some "!") =
        .error .signatureInvalid ∨
      decrypt "eyJhbGciOiJIUzI1NiJ9.JQ.AGUAMwAwAmV5SmhiR2NpT2lKSVV6STFOaUo5LklR" (some "!") =
        .error .malformedToken) := by
  refine ⟨rfl, rfl, ?_⟩
  intro h
  have heval : decrypt "eyJhbGciOiJIUzI1NiJ9.JQ.AGUAMwAwAmV5SmhiR2NpT2lKSVV6STFOaUo5LklR"
      (some "!") = .error .secretDecode := rfl
  rcases h with h | h <;> rw [heval] at h <;> simp at h

/-- C6 amended: for every non-empty secret that base64url-decodes, changing any
single character of the payload segment of a token serialize produced makes
decrypt fail with the invalid-signature or the malformed-token error — it never
succeeds; but the claim does not extend to the signature segment with those two
errors: changing the final character of the signature segment of the token for
the empty collection under secret ZTMw (a character carrying only discarded
trailing bits, so the segment still decodes to the very same signature bytes)
makes decrypt fail with the MALFORMED-PAYLOAD error instead, since verification
then passes and the payload — the secret itself, by the swapped CompactSign
arguments — is not JSON. -/
theorem c6_amended_single_char_mutation (p : Params) (s : String) (key : List Nat)
    (i : Nat) (c : Char)
    (hs : ¬(s = "")) (hkey : joseB64DecodeChars s.data = some key)
    (hi : i < (payloadSegChars s).length)
    (hc : ¬(c = (payloadSegChars s).get ⟨i, hi⟩)) :
    (decrypt (String.mk (headerSegChars ++ '.' ::
        ((payloadSegChars s).set i c ++ '.' :: sigSegChars p s))) (some s) =
          .error .signatureInvalid ∨
     decrypt (String.mk (headerSegChars ++ '.' ::
        ((payloadSegChars s).set i c ++ '.' :: sigSegChars p s))) (some s) =
          .error .malformedToken) ∧
    serialize [] (some "ZTMw") =
      .ok "eyJhbGciOiJIUzI1NiJ9.WlRNdw.AGUAMwAwAmV5SmhiR2NpT2lKSVV6STFOaUo5LldsUk5kdw" ∧
    decrypt "eyJhbGciOiJIUzI1NiJ9.WlRNdw.AGUAMwAwAmV5SmhiR2NpT2lKSVV6STFOaUo5LldsUk5kdx"
      (some "ZTMw") = .error .malformedPayload := by
  refine ⟨?_, rfl, rfl⟩
  by_cases hdot : c = '.'
  · right
    subst hdot
    show decryptWith hmacSHA256 _ _ = _
    rw [decrypt_reduce hmacSHA256 _ s key hs hkey]
    have hxdot : '.' ∈ (payloadSegChars s).set i '.' := List.mem_set (payloadSegChars s) i hi '.'
    rw [compactVerifyWith_not3 _ _ _ (splitOnDot_token_ne3_of_dot_left hxdot)]
  · left
    have hxnd : '.' ∉ (payloadSegChars s).set i c := by
      intro hmem
      rcases List.mem_or_eq_of_mem_set hmem with h | h
      · exact payloadSegChars_no_dot s h
      · exact hdot h.symm
    show decryptWith hmacSHA256 _ _ = _
    rw [decrypt_reduce hmacSHA256 _ s key hs hkey]
    have hsplit := splitOnDot_token headerSegChars_no_dot hxnd (sigSegChars_no_dot p s)
    rw [compactVerify_header hmacSHA256 _ _ key _ hsplit]
    have hcmp : ¬ (hmacSHA256 (signKeyBytes p)
        (utf8Chars (headerSegChars ++ '.' :: payloadSegChars s)) =
      hmacSHA256 key (utf8Chars (headerSegChars ++ '.' :: (payloadSegChars s).set i c))) := by
      intro heq
      have hinj := hmacSHA256_inj (signKeyBytes p) (utf8Chars_lt256 _)
        (joseB64DecodeChars_lt256 hkey) (utf8Chars_lt256 _) (utf8Chars_lt256 _) heq
      have hmsg := utf8Chars_inj hinj.2
      have h3 := List.append_cancel_left hmsg
      injection h3 with _ h4
      have h5 : (payloadSegChars s)[i]? = some c := by
        rw [h4]
        exact List.getElem?_set_self hi
      rw [List.getElem?_eq_getElem hi] at h5
      injection h5 with h6
      exact hc ((by simp [List.get_eq_getElem] : (payloadSegChars s).get ⟨i, hi⟩ =
        (payloadSegChars s)[i]) ▸ h6.symm)
    simp only [sigSegChars_decode, if_neg hcmp]

theorem c6_witness :
    (decrypt (String.mk (headerSegChars ++ '.' ::
        ((payloadSegChars "AAAA").set 0 'B' ++ '.' :: sigSegChars [] "AAAA"))) (some "AAAA") =
          .error .signatureInvalid ∨
     decrypt (String.mk (headerSegChars ++ '.' ::
        ((payloadSegChars "AAAA").set 0 'B' ++ '.' :: sigSegChars [] "AAAA"))) (some "AAAA") =
          .error .malformedToken) ∧
    serialize [] (some "ZTMw") =
      .ok "eyJhbGciOiJIUzI1NiJ9.WlRNdw.AGUAMwAwAmV5SmhiR2NpT2lKSVV6STFOaUo5LldsUk5kdw" ∧
    decrypt "eyJhbGciOiJIUzI1NiJ9.WlRNdw.AGUAMwAwAmV5SmhiR2NpT2lKSVV6STFOaUo5LldsUk5kdx"
      (some "ZTMw") = .error .malformedPayload :=
  c6_amended_single_char_mutation [] "AAAA" [0, 0, 0] 0 'B' (by decide) rfl
    (by decide) (by decide)

/-- C7 counterexample: the claim that decode of a structurally invalid string fails
with the malformed-token error for every non-empty secret is false: with the
non-base64url-decodable secret exclamation-mark the failure is the secret-decoding
TypeError raised while decoding the secret, before the input is examined. -/
theorem c7_counterexample :
    decrypt "not-a-token" (some "!") = .error .secretDecode ∧
    ¬(decrypt "not-a-token" (some "!") = .error .malformedToken) := by
  refine ⟨rfl, ?_⟩
  intro h
  rw [show decrypt "not-a-token" (some "!") = .error .secretDecode from rfl] at h
  simp at h

/-- C7 amended: for every non-empty secret that base64url-decodes, decode of any
input that does not split into three dot-separated segments, or whose header segment
does not decode and parse to a record declaring alg HS256, fails with the
malformed-token error — a distinguishable error, not a crash and not a silently
returned empty collection. -/
theorem c7_amended_malformed_token (c s : String) (key : List Nat)
    (hs : ¬(s = "")) (hkey : joseB64DecodeChars s.data = some key)
    (hshape : MalformedShape c.data) :
    decrypt c (some s) = .error .malformedToken :=
  decrypt_malformed_shape c s key hs hkey hshape

theorem c7_witness :
    decrypt "not-a-token" (some "s3cret") = .error .malformedToken := by
  apply c7_amended_malformed_token "not-a-token" "s3cret" [179, 119, 43, 122]
    (by decide) (by rfl)
  intro h p g heq
  rw [show splitOnDot "not-a-token".data = ["not-a-token".data] from rfl] at heq
  simp at heq

/-- C8: for every collection and non-empty secret, serialize returns one string made
of exactly three segments joined by the dot, every character of every segment lies
in the URL-safe base64 alphabet, the dot is not in that alphabet, and the fixed
header segment decodes and parses to a record declaring the single algorithm HS256. -/
theorem c8_token_shape (p : Params) (s : String) (hs : ¬(s = "")) :
    serialize p (some s) =
      .ok (String.mk (headerSegChars ++ '.' :: (payloadSegChars s ++ '.' :: sigSegChars p s))) ∧
    (∀ c ∈ headerSegChars, c ∈ b64UrlAlphabet) ∧
    (∀ c ∈ payloadSegChars s, c ∈ b64UrlAlphabet) ∧
    (∀ c ∈ sigSegChars p s, c ∈ b64UrlAlphabet) ∧
    '.' ∉ b64UrlAlphabet ∧
    (∃ hb hpairs, joseB64DecodeChars headerSegChars = some hb ∧
      jsonParseRecord (utf8DecodeChars hb) = some hpairs ∧
      lookupRecord "alg" (fromEntries hpairs) = some "HS256") := by
  refine ⟨serialize_some p s hs, ?_, ?_, ?_, alphabet_no_dot, ?_⟩
  · exact fun c hc => mem_b64UrlEncode_alphabet _ c hc
  · exact fun c hc => mem_b64UrlEncode_alphabet _ c hc
  · exact fun c hc => mem_b64UrlEncode_alphabet _ c hc
  · refine ⟨utf8Chars headerJsonChars, [("alg", "HS256")], headerSegChars_decode, ?_, by decide⟩
    rw [utf8DecodeChars_utf8Chars]
    decide

theorem c8_witness :
    serialize [("q", "hello")] (some "s3cret") =
      .ok (String.mk (headerSegChars ++ '.' ::
        (payloadSegChars "s3cret" ++ '.' :: sigSegChars [("q", "hello")] "s3cret"))) ∧
    (∀ c ∈ headerSegChars, c ∈ b64UrlAlphabet) ∧
    (∀ c ∈ payloadSegChars "s3cret", c ∈ b64UrlAlphabet) ∧
    (∀ c ∈ sigSegChars [("q", "hello")] "s3cret", c ∈ b64UrlAlphabet) ∧
    '.' ∉ b64UrlAlphabet ∧
    (∃ hb hpairs, joseB64DecodeChars headerSegChars = some hb ∧
      jsonParseRecord (utf8DecodeChars hb) = some hpairs ∧
      lookupRecord "alg" (fromEntries hpairs) = some "HS256") :=
  c8_token_shape [("q", "hello")] "s3cret" (by decide)

/-- C9: serialize never mutates the caller's collection: run on an explicit object
store, it copies the caller's URLSearchParams into a fresh object, sorts only that
copy, and the caller's reference still holds exactly the original entries
afterwards; with the identity transform any mutation could only have come from the
caller-supplied function. -/
theorem c9_core_never_mutates_caller (st : ParamsStore) (r : Nat) (p : Params)
    (secret : Option String) (hr : getObj st r = some p) :
    getObj (precomputeSearchParamsOp st r identityParse secret).1 r = some p := by
  unfold precomputeSearchParamsOp identityParse serializeOp
  cases secret with
  | none => exact hr
  | some s =>
    show getObj ((if s = "" then (st, Except.error Err.configuration)
      else
        let a := allocObj st (getObjD st r)
        let st2 := setObj a.1 a.2 (sortParams (getObjD a.1 a.2))
        (st2, Except.ok (signSortedWith hmacSHA256 (getObjD st2 a.2) s))).1) r = some p
    by_cases hs : s = ""
    · rw [if_pos hs]
      exact hr
    · rw [if_neg hs]
      show getObj (setObj (allocObj st (getObjD st r)).1 (allocObj st (getObjD st r)).2
        (sortParams (getObjD (allocObj st (getObjD st r)).1
          (allocObj st (getObjD st r)).2))) r = some p
    
      have hfresh : r ≠ (allocObj st (getObjD st r)).2 := Nat.ne_of_lt (getObj_lt_freshRef hr)
      rw [getObj_setObj_ne _ r _ _ hfresh]
      show getObj ⟨(freshRef st, getObjD st r) :: st.objs⟩ r = some p
      show (List.find? (fun e => e.1 == r) ((freshRef st, getObjD st r) :: st.objs)).map
        (fun e => e.2) = some p
      rw [List.find?_cons_of_neg]
      · exact hr
      · simp only [beq_iff_eq]
        exact fun hh => hfresh (hh ▸ rfl)

theorem c9_witness :
    getObj (precomputeSearchParamsOp ⟨[(0, [("a", "1")])]⟩ 0 identityParse
      (some "s3cret")).1 0 = some [("a", "1")] :=
  c9_core_never_mutates_caller ⟨[(0, [("a", "1")])]⟩ 0 [("a", "1")] (some "s3cret") rfl

/-- C10: when a key occurs more than once, the record that gets signed maps that key
to the value of its last occurrence in insertion order — the stable sort keeps the
relative order of equal keys and Object.fromEntries keeps the last value per key —
so the record read of any key is the last value among its occurrences and all
earlier values are dropped. -/
theorem c10_duplicate_keys_last_wins (p : Params) (k : String) :
    lookupRecord k (fromEntries (sortParams p)) =
      ((p.filter (fun e => e.1 == k)).getLast?).map (fun e => e.2) := by
  unfold fromEntries
  rw [lookupRecord_foldl k (sortParams p) [], filter_sortParams k p]
  cases h : (p.filter (fun e => e.1 == k)).getLast? with
  | none => rfl
  | some e => rfl
